import Mathlib

/-!
Verification development for the `scrape` web-scraper core
(the Python script shipped in the repository README).

The development shallowly embeds the script's pure algorithmic core:

* `clean_filename` / `organize_path` (the `FileOrganizer` class),
* the recursive sitemap resolver `get_all_urls_from_sitemap`,
* `get_sitemap_url` and the `main` driver's URL-selection logic,
* the chunked crawl loop of `crawl_parallel` (counters, progress,
  file-write effects),
* `preview_file_structure` (the dry-run tree, modelled as its set of
  directory nodes plus its list of leaf entries),
* the argument convention of the `requests.get` call made by
  `fetch_url_content`.

Strings are modelled over ASCII: Python's `\w` / `\s` regex classes,
`str.title`, `str.strip`, `str.lower` are given their ASCII semantics,
which is exact for every input considered here.
-/

namespace Scrape

/-! ## Definitions -/

/-- Python `str.lower()` (ASCII semantics). -/
def strToLower (s : String) : String := String.mk (s.data.map Char.toLower)

/-- Python `str.endswith(t)`. -/
def strEndsWith (s t : String) : Bool := t.data.isSuffixOf s.data

/-- Python `str.startswith(t)`. -/
def strStartsWith (s t : String) : Bool := t.data.isPrefixOf s.data

/-- Lexicographic order on character lists (Python string comparison). -/
def lexLe : List Char → List Char → Bool
  | [], _ => true
  | _ :: _, [] => false
  | a :: as, b :: bs => if a < b then true else if a = b then lexLe as bs else false

/-- Insert into a lexicographically sorted list of strings. -/
def insertStr (x : String) : List String → List String
  | [] => [x]
  | y :: ys => if lexLe x.data y.data then x :: y :: ys else y :: insertStr x ys

/-- Python `sorted(...)` for strings (stable ascending insertion sort). -/
def sortStrs : List String → List String
  | [] => []
  | x :: xs => insertStr x (sortStrs xs)

/-- Python regex `\w` (ASCII): letters, digits, underscore. -/
def isWordChar (c : Char) : Bool := c.isAlphanum || c = '_'

/-- Python regex `\s` (ASCII): space, tab, newline, CR, vertical tab, form feed. -/
def isWsChar (c : Char) : Bool :=
  c = ' ' || c = '\t' || c = '\n' || c = '\r' || c = '\x0b' || c = '\x0c'

/-- Python `re.sub(r"[^\w\-]", " ", name)`: every character that is neither a word
character nor a hyphen becomes a space.  (The character class `[^\w\-]`
excludes the escaped hyphen, so hyphens are kept.) -/
def replNonWord (l : List Char) : List Char :=
  l.map (fun c => if isWordChar c || c = '-' then c else ' ')

/-- Helper for `re.sub(r"\s+", " ", name)`: the flag records whether the
previous character belonged to a whitespace run already rendered as one space. -/
def collapseWsAux : Bool → List Char → List Char
  | _, [] => []
  | prev, c :: cs =>
    if isWsChar c then
      if prev then collapseWsAux true cs else ' ' :: collapseWsAux true cs
    else c :: collapseWsAux false cs

/-- Python `re.sub(r"\s+", " ", name)`: each maximal whitespace run becomes one space. -/
def collapseWs (l : List Char) : List Char := collapseWsAux false l

/-- Python `str.strip()`: drop leading and trailing whitespace. -/
def stripWs (l : List Char) : List Char :=
  ((l.dropWhile isWsChar).reverse.dropWhile isWsChar).reverse

/-- Helper for `str.title()`: the flag records whether the previous character
was cased (a letter).  A letter after a non-cased character is uppercased,
a letter after a letter is lowercased; other characters pass through. -/
def pyTitleAux : Bool → List Char → List Char
  | _, [] => []
  | prevCased, c :: cs =>
    if c.isAlpha then
      (if prevCased then c.toLower else c.toUpper) :: pyTitleAux true cs
    else c :: pyTitleAux false cs

/-- Python `str.title()` (ASCII semantics). -/
def pyTitle (l : List Char) : List Char := pyTitleAux false l

/-- Python `str.replace(" ", "_")`. -/
def spacesToUnderscores (l : List Char) : List Char :=
  l.map (fun c => if c = ' ' then '_' else c)

/-- Python `FileOrganizer.clean_filename`, translated stage by stage from the source:
replace non-word non-hyphen characters by spaces, collapse whitespace runs,
strip, title-case, and turn the remaining spaces into underscores. -/
def clean_filename (s : String) : String :=
  String.mk (spacesToUnderscores (pyTitle (stripWs (collapseWs (replNonWord s.data)))))

/-- Split a character list at every occurrence of `sep`, keeping empty groups
(the group structure of Python's `str.split(sep)`). -/
def splitChar (sep : Char) : List Char → List (List Char)
  | [] => [[]]
  | c :: cs =>
    match splitChar sep cs with
    | [] => [[]]
    | g :: gs => if c = sep then [] :: g :: gs else (c :: g) :: gs

/-- The non-empty maximal space-free groups of a character list. -/
def wordsBySpaces (l : List Char) : List (List Char) :=
  (splitChar ' ' l).filter (fun w => !w.isEmpty)

/-- Join groups with a single separator character. -/
def joinWith (sep : Char) : List (List Char) → List Char
  | [] => []
  | [w] => w
  | w :: ws => w ++ sep :: joinWith sep ws

/-- The cleaning pipeline exactly as the specification sentence states it:
EVERY non-word character (hyphens included) is replaced by a space, whitespace
runs are collapsed, the result is stripped and title-cased, and the remaining
spaces become underscores.  Independently formulated as: split the
space-normalised string into words, title-case each word, join with
underscores. -/
def specCleanStated (s : String) : String :=
  String.mk (joinWith '_'
    ((wordsBySpaces (s.data.map (fun c => if isWordChar c then c else ' '))).map pyTitle))

/-- The pipeline of `specCleanStated` amended minimally to match the source:
the replacement step spares hyphens (the regex class is `[^\w\-]`, not `[^\w]`). -/
def specCleanHyphen (s : String) : String :=
  String.mk (joinWith '_'
    ((wordsBySpaces (s.data.map (fun c => if isWordChar c || c = '-' then c else ' '))).map pyTitle))

/-- One decimal digit as a character. -/
def digitChar : Nat → Char
  | 0 => '0' | 1 => '1' | 2 => '2' | 3 => '3' | 4 => '4'
  | 5 => '5' | 6 => '6' | 7 => '7' | 8 => '8' | _ => '9'

/-- Inverse of `digitChar` on decimal digits. -/
def charDigit : Char → Nat
  | '0' => 0 | '1' => 1 | '2' => 2 | '3' => 3 | '4' => 4
  | '5' => 5 | '6' => 6 | '7' => 7 | '8' => 8 | _ => 9

/-- Little-endian decimal digits, with enough fuel (structural recursion so
that concrete values reduce in the kernel). -/
def natDigsRevAux : Nat → Nat → List Char
  | 0, _ => []
  | fuel + 1, n => if n = 0 then [] else digitChar (n % 10) :: natDigsRevAux fuel (n / 10)

/-- Little-endian decimal digits of a positive number (empty for `0`). -/
def natDigsRev (n : Nat) : List Char := natDigsRevAux n n

/-- Python `str(n)` for a natural number. -/
def natStr (n : Nat) : String :=
  if n = 0 then "0" else String.mk (natDigsRev n).reverse

/-- Decimal value of a little-endian digit list. -/
def valRev : List Char → Nat
  | [] => 0
  | c :: cs => charDigit c + 10 * valRev cs

/-- The components of a parsed URL that the script reads. -/
structure ParseResult where
  scheme : String
  netloc : String
  path : String
  query : String
  fragment : String
deriving DecidableEq, Repr

/-- Split a character list at the first occurrence of `sep` (separator removed). -/
def splitFirst (sep : Char) : List Char → Option (List Char × List Char)
  | [] => none
  | c :: cs =>
    if c = sep then some ([], cs)
    else (splitFirst sep cs).map (fun p => (c :: p.1, p.2))

/-- A valid URL scheme: first character a letter, the rest letters, digits,
`+`, `-` or `.` (CPython's `scheme_chars`). -/
def validScheme : List Char → Bool
  | [] => false
  | c :: cs => c.isAlpha && cs.all (fun d => d.isAlphanum || d = '+' || d = '-' || d = '.')

/-- Python `urllib.parse.urlparse`, restricted to the fields the script reads:
split off a valid scheme at the first `:`, read a netloc after `//`
(delimited by `/`, `?` or `#`), then split off the fragment at the first `#`
and the query at the first `?`. -/
def urlparse (u : String) : ParseResult :=
  let l := u.data
  let (scheme, r1) :=
    match splitFirst ':' l with
    | some (pre, post) =>
      if validScheme pre then (pre.map Char.toLower, post) else (([] : List Char), l)
    | none => (([] : List Char), l)
  let (netloc, r2) :=
    match r1 with
    | '/' :: '/' :: r =>
      (r.takeWhile (fun c => !(c = '/' || c = '?' || c = '#')),
       r.dropWhile (fun c => !(c = '/' || c = '?' || c = '#')))
    | _ => (([] : List Char), r1)
  let (r3, fragment) :=
    match splitFirst '#' r2 with
    | some (a, b) => (a, b)
    | none => (r2, ([] : List Char))
  let (path, query) :=
    match splitFirst '?' r3 with
    | some (a, b) => (a, b)
    | none => (r3, ([] : List Char))
  ⟨String.mk scheme, String.mk netloc, String.mk path, String.mk query, String.mk fragment⟩

/-- The organizer's naming table: `(directory, filename) -> URL`. -/
def OrgTable : Type := List ((String × String) × String)

instance : DecidableEq OrgTable := by unfold OrgTable; infer_instance

/-- Python `used_names[dir].get(filename)`: first binding of the key. -/
def tblLookup : OrgTable → String × String → Option String
  | [], _ => none
  | (k, v) :: t, key => if key = k then some v else tblLookup t key

/-- The empty table of a freshly constructed `FileOrganizer`. -/
def emptyTbl : OrgTable := []

/-- The candidate filename `f"{filename_base}_{counter}.md"`. -/
def mkCand (base : String) (counter : Nat) : String :=
  base ++ "_" ++ natStr counter ++ ".md"

/-- The `while True: counter += 1` search for an unclaimed suffixed filename.
The Python loop is unbounded; here it carries fuel, and
`searchFrom_free` below shows that `tbl.length + 1` fuel always suffices,
so the fuel-exhausted fallback is never taken. -/
def searchFrom (tbl : OrgTable) (dir base : String) : Nat → Nat → String
  | 0, counter => mkCand base counter
  | fuel + 1, counter =>
    let f := mkCand base counter
    if tblLookup tbl (dir, f) = none then f else searchFrom tbl dir base fuel (counter + 1)

/-- Python `[p for p in parsed.path.split("/") if p]`. -/
def pathSegs (url : String) : List String :=
  ((splitChar '/' (urlparse url).path.data).map String.mk).filter (fun p => p ≠ "")

/-- Python `os.path.join(*directory_parts)` for slash-free non-empty parts. -/
def joinParts (parts : List String) : String := String.intercalate "/" parts

/-- The directory and base filename `organize_path` computes before any
collision handling: cleaned non-last segments joined with `/`, and the
cleaned last segment (falling back to `"index"` when it cleans to empty)
with the `.md` extension. -/
def rawSlot (url : String) : String × String :=
  match pathSegs url with
  | [] => ("", "index.md")
  | p :: ps =>
    let dirParts := ((p :: ps).dropLast.map clean_filename).filter (fun s => s ≠ "")
    let dir := if dirParts = [] then "" else joinParts dirParts
    let base0 := clean_filename ((p :: ps).getLast (List.cons_ne_nil p ps))
    let base := if base0 = "" then "index" else base0
    (dir, base ++ ".md")

/-- The `filename_base` stem (before `".md"`), for the collision search. -/
def rawBase (url : String) : String :=
  match pathSegs url with
  | [] => "index"
  | p :: ps =>
    let base0 := clean_filename ((p :: ps).getLast (List.cons_ne_nil p ps))
    if base0 = "" then "index" else base0

/-- Python `FileOrganizer.organize_path`: returns the directory, the filename, and
the updated naming table.  URLs with no path segments return
`("", "index.md")` before any collision handling (the early `return`);
otherwise the computed filename is reused if this URL already claimed it,
disambiguated with `_1`, `_2`, … if a different URL claimed it, and
recorded in the table. -/
def organize_path (tbl : OrgTable) (url : String) : String × String × OrgTable :=
  match pathSegs url with
  | [] => ("", "index.md", tbl)
  | _ :: _ =>
    match tblLookup tbl (rawSlot url) with
    | some u =>
      if u = url then ((rawSlot url).1, (rawSlot url).2, tbl)
      else
        ((rawSlot url).1,
         searchFrom tbl (rawSlot url).1 (rawBase url) (tbl.length + 1) 1,
         (((rawSlot url).1, searchFrom tbl (rawSlot url).1 (rawBase url) (tbl.length + 1) 1),
          url) :: tbl)
    | none => ((rawSlot url).1, (rawSlot url).2, (rawSlot url, url) :: tbl)

/-- A sequence of `organize_path` calls on one organizer instance. -/
def runCalls (tbl : OrgTable) : List String → OrgTable
  | [] => tbl
  | u :: us => runCalls (organize_path tbl u).2.2 us

/-- A parsed sitemap document, by root tag. -/
inductive XmlDoc where
  | sitemapindex (locs : List String)
  | urlset (locs : List String)
  | other
  | malformed
deriving DecidableEq, Repr

/-- The `<loc>` entries of a document. -/
def docLocs : XmlDoc → List String
  | XmlDoc.sitemapindex locs => locs
  | XmlDoc.urlset locs => locs
  | _ => []

/-- The finite collection of sitemap documents. -/
def Web : Type := List (String × XmlDoc)

/-- Fetch and parse one sitemap URL. -/
def fetchDoc : Web → String → Option XmlDoc
  | [], _ => none
  | (u, d) :: w, url => if url = u then some d else fetchDoc w url

/-- Python `loc.lower().endswith(".xml")`. -/
def isXmlUrl (s : String) : Bool := strEndsWith (strToLower s) ".xml"

/-- Enqueue a `<loc>` unless it was already processed or is already queued
(`if loc not in processed_sitemaps and loc not in sitemaps_to_process`). -/
def enqueue1 (processed : List String) (q : List String) (loc : String) : List String :=
  if loc ∈ processed ∨ loc ∈ q then q else q ++ [loc]

/-- The sitemap-index branch: enqueue every `<loc>`. -/
def indexStep (processed : List String) (q : List String) (locs : List String) : List String :=
  locs.foldl (enqueue1 processed) q

/-- Python `set.add` on the result collection (insertion-ordered set). -/
def addUrl (acc : List String) (loc : String) : List String :=
  if loc ∈ acc then acc else acc ++ [loc]

/-- The urlset branch, per `<loc>`: a `.xml` URL is enqueued as a nested
sitemap, anything else joins the final URL set. -/
def urlsetStep (processed : List String) (st : List String × List String) (loc : String) :
    List String × List String :=
  if isXmlUrl loc then (enqueue1 processed st.1 loc, st.2) else (st.1, addUrl st.2 loc)

/-- The worklist loop of `get_all_urls_from_sitemap`, with fuel.  State:
queue, processed set, accumulated page URLs, and the trace of fetched
sitemap URLs (one entry per `fetch_url_content` call).  Returns `none` only
on fuel exhaustion; `resolve_terminates` shows a computable fuel bound always
suffices. -/
def resolveAux (web : Web) : Nat → List String → List String → List String → List String →
    Option (List String × List String)
  | 0, _, _, _, _ => none
  | _ + 1, [], _, acc, tr => some (acc, tr)
  | fuel + 1, cur :: rest, processed, acc, tr =>
    if cur ∈ processed then resolveAux web fuel rest processed acc tr
    else
      match fetchDoc web cur with
      | none => resolveAux web fuel rest (cur :: processed) acc (tr ++ [cur])
      | some (XmlDoc.sitemapindex locs) =>
        resolveAux web fuel (indexStep (cur :: processed) rest locs) (cur :: processed) acc
          (tr ++ [cur])
      | some (XmlDoc.urlset locs) =>
        let st := locs.foldl (urlsetStep (cur :: processed)) (rest, acc)
        resolveAux web fuel st.1 (cur :: processed) st.2 (tr ++ [cur])
      | some _ => resolveAux web fuel rest (cur :: processed) acc (tr ++ [cur])

/-- Every `<loc>` of every document in the web. -/
def allLocs : Web → List String
  | [] => []
  | (_, d) :: w => docLocs d ++ allLocs w

/-- Fuel that always suffices (proved in `resolveAux_some_of_fuel`). -/
def sufficientFuel (web : Web) (initial : String) : Nat :=
  (initial :: allLocs web).length * ((allLocs web).length + 1) + 2

/-- Python `get_all_urls_from_sitemap`: the final URL set and the fetch trace. -/
def resolve (web : Web) (initial : String) : List String × List String :=
  (resolveAux web (sufficientFuel web initial) [initial] [] [] []).getD ([], [])

/-- Number of universe elements not yet processed. -/
def cntNew (univ p : List String) : Nat :=
  (univ.filter (fun x => decide (x ∉ p))).length

/-- The loop measure: unprocessed universe elements weighted by the maximal
queue growth of one step, plus the queue length. -/
def rMeasure (web : Web) (initial : String) (q p : List String) : Nat :=
  cntNew (initial :: allLocs web) p * ((allLocs web).length + 1) + q.length

/-- An HTTP request as issued by `requests.get`: target URL, query
parameters, and the socket timeout (`none` = no timeout). -/
structure HttpRequest where
  url : String
  params : List (String × String)
  timeout : Option Nat
deriving DecidableEq, Repr

/-- Python `requests.get(url, params=None, **kwargs)`: the second positional
argument is `params`; a timeout reaches the request only as the `timeout`
keyword argument. -/
def requests_get (url : String) (params : List (String × String)) (timeout : Option Nat) :
    HttpRequest :=
  ⟨url, params, timeout⟩

/-- The call `loop.run_in_executor(None, requests.get, url, {"timeout": 10})`
in `fetch_url_content`: `requests.get` is applied to the two positional
arguments `url` and `{"timeout": 10}`, so the dict binds to `params` and no
`timeout` keyword is passed. -/
def fetch_url_request (url : String) : HttpRequest :=
  requests_get url [("timeout", "10")] none

/-- Python `get_sitemap_url`: default the scheme to `https://`, strip one trailing
slash, append `/sitemap.xml`. -/
def get_sitemap_url (site_url : String) : String :=
  let s := if strStartsWith site_url "http://" || strStartsWith site_url "https://" then
    site_url else "https://" ++ site_url
  let s2 := if strEndsWith s "/" then s.dropRight 1 else s
  s2 ++ "/sitemap.xml"

/-- Python `main`'s choice of the initial sitemap URL: the input itself when it ends
in `.xml` (case-insensitive), else `get_sitemap_url`. -/
def initialSitemapUrl (site_url : String) : String :=
  if isXmlUrl site_url then site_url else get_sitemap_url site_url

/-- Python `f"{parsed.scheme}://{parsed.netloc}/"` on the given URL string. -/
def rootUrlOf (u : String) : String :=
  (urlparse u).scheme ++ "://" ++ (urlparse u).netloc ++ "/"

/-- Python `main`'s root-URL extraction: keep URLs with a non-empty scheme and
netloc, reduce each to `scheme://netloc/`, deduplicate, sort. -/
def extractRoots (all_urls : List String) : List String :=
  sortStrs (all_urls.foldl
    (fun acc u =>
      if (urlparse u).scheme ≠ "" ∧ (urlparse u).netloc ≠ "" then addUrl acc (rootUrlOf u)
      else acc)
    [])

/-- The URL list `main` hands to the crawler (or to the dry-run preview):
the single raw-input root on an empty resolver result, otherwise the sorted
unique roots. -/
def mainUrlsToProcess (web : Web) (site_url : String) : List String :=
  let all_urls := (resolve web (initialSitemapUrl site_url)).1
  if all_urls = [] then [rootUrlOf site_url] else extractRoots all_urls

/-- Directory nodes plus file leaves of the preview tree. -/
structure PreviewState where
  dirNodes : List String
  leaves : List (String × String)
deriving DecidableEq, Repr

/-- Walk `subdir.split(os.sep)`, creating each missing cumulative path node. -/
def addDirChain (ps : PreviewState) (parts : List String) : PreviewState :=
  (parts.foldl
    (fun (st : PreviewState × String) part =>
      let cur := if st.2 = "" then part else st.2 ++ "/" ++ part
      (if cur ∈ st.1.dirNodes then st.1
       else { st.1 with dirNodes := st.1.dirNodes ++ [cur] }, cur))
    (ps, "")).1

/-- One URL of the preview loop: organize it, then add one leaf (at the root
for an empty subdir, otherwise under the subdir's chain of directory nodes). -/
def previewStep (st : OrgTable × PreviewState) (url : String) : OrgTable × PreviewState :=
  let r := organize_path st.1 url
  if r.1 = "" then (r.2.2, { st.2 with leaves := st.2.leaves ++ [("", r.2.1)] })
  else
    let ps := addDirChain st.2 ((splitChar '/' r.1.data).map String.mk)
    (r.2.2, { ps with leaves := ps.leaves ++ [(r.1, r.2.1)] })

/-- Python `preview_file_structure`: sort the URLs, then fold with a fresh
`FileOrganizer`. -/
def preview_file_structure (urls : List String) : PreviewState :=
  ((sortStrs urls).foldl previewStep (emptyTbl, ⟨[], []⟩)).2

/-- The settled outcome of one `crawler.arun` task, as inspected by the loop:
an exception, or a result object with its `success` flag and markdown. -/
inductive FetchRes where
  | exc
  | res (success : Bool) (markdown : String)
deriving DecidableEq, Repr

/-- The outcome of one chunk: `asyncio.gather` itself raising, or the settled
per-task results. -/
inductive ChunkRes where
  | chunkExc
  | settled (rs : List FetchRes)
deriving DecidableEq, Repr

/-- The loop's success test: not an exception and `result.success` is true. -/
def isOkRes : FetchRes → Bool
  | FetchRes.res true _ => true
  | _ => false

/-- A settled chunk outcome carries one result per task of the batch
(`asyncio.gather` returns one entry per task). -/
def chunkLenOk (cr : ChunkRes) (batch : List String) : Bool :=
  match cr with
  | ChunkRes.settled rs => decide (rs.length = batch.length)
  | ChunkRes.chunkExc => true

/-- Externally visible effects of a run. -/
inductive Eff where
  | sitemapFetch (url : String)
  | pageFetch (url : String)
  | mkdirE (path : String)
  | writeE (path : String) (content : String)
deriving DecidableEq, Repr

/-- Whether an effect is a sitemap fetch (the only effect a dry run makes). -/
def isSitemapEff : Eff → Bool
  | Eff.sitemapFetch _ => true
  | _ => false

/-- Python `os.path.join` for two components (POSIX). -/
def pyJoin (a b : String) : String :=
  if strStartsWith b "/" then b
  else if a = "" ∨ strEndsWith a "/" then a ++ b
  else a ++ "/" ++ b

/-- The crawl loop's state: counters, progress ticks, the shared
`FileOrganizer` table, and the effect trace. -/
structure CrawlState where
  success : Nat
  fail : Nat
  progress : Nat
  tbl : OrgTable
  effects : List Eff
deriving DecidableEq

/-- Python `urls[i : i + max_concurrent]` chunking, with structural fuel. -/
def chunksOfAux (k : Nat) : Nat → List String → List (List String)
  | 0, _ => []
  | fuel + 1, l =>
    if l = [] ∨ k = 0 then [] else l.take k :: chunksOfAux k fuel (l.drop k)

/-- The consecutive chunks `urls[0:k], urls[k:2k], …`. -/
def chunksOf (k : Nat) (l : List String) : List (List String) := chunksOfAux k l.length l

/-- One `(url, result)` pair of a settled chunk: an exception or a
non-success counts as a failure; a success organizes the path, creates the
directory and writes the markdown.  Progress advances once per URL. -/
def processOne (outDir : String) (st : CrawlState) (pr : String × FetchRes) : CrawlState :=
  match pr.2 with
  | FetchRes.exc => { st with fail := st.fail + 1, progress := st.progress + 1 }
  | FetchRes.res ok md =>
    if ok then
      let r := organize_path st.tbl pr.1
      let fullDir := pyJoin outDir r.1
      { st with
        success := st.success + 1
        tbl := r.2.2
        effects := st.effects ++ [Eff.mkdirE fullDir, Eff.writeE (pyJoin fullDir r.2.1) md]
        progress := st.progress + 1 }
    else { st with fail := st.fail + 1, progress := st.progress + 1 }

/-- One chunk: all fetches are issued, then either the whole-chunk exception
handler fires (`fail_count += len(batch)`, progress advanced by the batch)
or each settled `(url, result)` pair is inspected in order. -/
def processChunk (outDir : String) (st : CrawlState) (batch : List String) (cr : ChunkRes) :
    CrawlState :=
  let st1 := { st with effects := st.effects ++ batch.map Eff.pageFetch }
  match cr with
  | ChunkRes.chunkExc =>
    { st1 with fail := st1.fail + batch.length, progress := st1.progress + batch.length }
  | ChunkRes.settled rs => (batch.zip rs).foldl (processOne outDir) st1

/-- The chunk loop: each chunk is processed and the loop continues with the
next one. -/
def crawlChunks (outDir : String) (oracle : Nat → ChunkRes) :
    List (Nat × List String) → CrawlState → CrawlState
  | [], st => st
  | c :: cs, st => crawlChunks outDir oracle cs (processChunk outDir st c.2 (oracle c.1))

/-- State at entry of `crawl_parallel` (its own `os.makedirs(output_dir)`). -/
def initCrawlState (outDir : String) : CrawlState := ⟨0, 0, 0, emptyTbl, [Eff.mkdirE outDir]⟩

/-- Python `crawl_parallel`: chunk the URL list and run the loop; the oracle gives
each chunk's concurrent outcome. -/
def crawl_parallel (outDir : String) (urls : List String) (maxc : Nat)
    (oracle : Nat → ChunkRes) : CrawlState :=
  crawlChunks outDir oracle (chunksOf maxc urls).enum (initCrawlState outDir)

/-- What a run produces: the processed URL list, the effect trace, the
preview tree of a dry run, and the exit code. -/
structure RunOutcome where
  urlsToProcess : List String
  effects : List Eff
  preview : Option PreviewState
  exitCode : Nat

/-- Python `main(site_url, max_concurrent, verbosity, dry_run)`: pick the initial
sitemap URL, resolve, select the URL list (fallback root on an empty
result), then either render the dry-run preview or create the output folder
(named after the input's netloc) and crawl. -/
def mainRun (web : Web) (site_url : String) (maxc : Nat) (oracle : Nat → ChunkRes)
    (dry_run : Bool) : RunOutcome :=
  let r := resolve web (initialSitemapUrl site_url)
  let urls := if r.1 = [] then [rootUrlOf site_url] else extractRoots r.1
  let sitemapEffs := r.2.map Eff.sitemapFetch
  let domain := (urlparse site_url).netloc
  if dry_run then
    { urlsToProcess := urls, effects := sitemapEffs,
      preview := some (preview_file_structure urls), exitCode := 0 }
  else
    let cst := crawl_parallel domain urls maxc oracle
    { urlsToProcess := urls,
      effects := sitemapEffs ++ [Eff.mkdirE domain] ++ cst.effects,
      preview := none, exitCode := 0 }

/-- Drop trailing whitespace. -/
def stripTrail (l : List Char) : List Char := (l.reverse.dropWhile isWsChar).reverse

/-! ## Theorems -/

theorem charDigit_digitChar (d : Nat) (h : d < 10) : charDigit (digitChar d) = d := by
  interval_cases d <;> rfl

theorem valRev_natDigsRevAux (fuel n : Nat) (h : n ≤ fuel) :
    valRev (natDigsRevAux fuel n) = n := by
  induction fuel generalizing n with
  | zero => simp only [natDigsRevAux, valRev]; omega
  | succ fuel ih =>
    rw [natDigsRevAux]
    by_cases h0 : n = 0
    · simp [h0, valRev]
    · rw [if_neg h0, valRev, charDigit_digitChar _ (Nat.mod_lt _ (by omega)),
        ih (n / 10) (by omega)]
      omega

theorem valRev_natDigsRev (n : Nat) : valRev (natDigsRev n) = n :=
  valRev_natDigsRevAux n n (Nat.le_refl n)

theorem natDigsRev_inj {m n : Nat} (h : natDigsRev m = natDigsRev n) : m = n := by
  have := valRev_natDigsRev m
  rw [h, valRev_natDigsRev] at this
  omega

theorem natStr_inj {m n : Nat} (hm : 0 < m) (hn : 0 < n) (h : natStr m = natStr n) : m = n := by
  unfold natStr at h
  rw [if_neg (by omega), if_neg (by omega)] at h
  exact natDigsRev_inj (List.reverse_injective (congrArg String.data h))

example : natStr 1 = "1" := by decide

example : natStr 12 = "12" := by decide

example : natStr 230 = "230" := by decide

example : urlparse "https://Example.com/a/b?x=1#top" =
    ⟨"https", "Example.com", "/a/b", "x=1", "top"⟩ := by decide

example : urlparse "example.com" = ⟨"", "", "example.com", "", ""⟩ := by decide

example : urlparse "https://a.com" = ⟨"https", "a.com", "", "", ""⟩ := by decide

example : urlparse "http://x/a b" = ⟨"http", "x", "/a b", "", ""⟩ := by decide

example : organize_path emptyTbl "https://a.com" = ("", "index.md", emptyTbl) := by decide

example : organize_path emptyTbl "http://x/a_b" =
    ("", "A_B.md", [(("", "A_B.md"), "http://x/a_b")]) := by decide

example :
    (organize_path (organize_path emptyTbl "http://x/a_b").2.2 "http://x/a.b").2.1 =
      "A_B_1.md" := by decide

example : (organize_path emptyTbl "http://x/blog/my-post/").1 = "Blog" := by decide

example : (organize_path emptyTbl "http://x/blog/my-post/").2.1 = "My-Post.md" := by decide

theorem mkCand_inj {base : String} {c d : Nat} (hc : 0 < c) (hd : 0 < d)
    (h : mkCand base c = mkCand base d) : c = d := by
  unfold mkCand at h
  have h2 := congrArg String.data h
  simp only [String.data_append] at h2
  have h3 := List.append_cancel_right h2
  have h4 := List.append_cancel_left h3
  exact natStr_inj hc hd (by cases hs : natStr c with | _ d1 => cases ht : natStr d with
    | _ d2 => simp only [hs, ht] at h4; exact congrArg String.mk h4)

theorem tblLookup_mem_keys {tbl : OrgTable} {k : String × String} {v : String}
    (h : tblLookup tbl k = some v) : k ∈ tbl.map Prod.fst := by
  induction tbl with
  | nil => simp [tblLookup] at h
  | cons p t ih =>
    rw [tblLookup] at h
    by_cases hk : k = p.1
    · simp [hk]
    · rw [if_neg hk] at h
      simp [ih h]

theorem exists_free (tbl : OrgTable) (dir base : String) :
    ∃ j, j < tbl.length + 1 ∧ tblLookup tbl (dir, mkCand base (1 + j)) = none := by
  by_contra hcon
  push_neg at hcon
  have hsome : ∀ j, j < tbl.length + 1 → (dir, mkCand base (1 + j)) ∈ tbl.map Prod.fst := by
    intro j hj
    rcases Option.ne_none_iff_exists'.mp (hcon j hj) with ⟨v, hv⟩
    exact tblLookup_mem_keys hv
  have hnd : ((List.range (tbl.length + 1)).map
      (fun j => ((dir, mkCand base (1 + j)) : String × String))).Nodup := by
    refine List.Nodup.map_on ?_ (List.nodup_range _)
    intro x _ y _ hxy
    have := @mkCand_inj base _ _ (by omega) (by omega) (congrArg Prod.snd hxy)
    omega
  have hsub : ((List.range (tbl.length + 1)).map
      (fun j => ((dir, mkCand base (1 + j)) : String × String))) ⊆ tbl.map Prod.fst := by
    intro k hk
    rcases List.mem_map.mp hk with ⟨j, hj, rfl⟩
    exact hsome j (List.mem_range.mp hj)
  have := (hnd.subperm hsub).length_le
  simp at this

theorem searchFrom_free {tbl : OrgTable} {dir base : String} :
    ∀ fuel counter, (∃ j, j < fuel ∧ tblLookup tbl (dir, mkCand base (counter + j)) = none) →
      tblLookup tbl (dir, searchFrom tbl dir base fuel counter) = none := by
  intro fuel
  induction fuel with
  | zero => intro counter h; exact absurd h.choose_spec.1 (by omega)
  | succ fuel ih =>
    intro counter h
    rw [searchFrom]
    by_cases h0 : tblLookup tbl (dir, mkCand base counter) = none
    · simp [h0]
    · rw [if_neg h0]
      rcases h with ⟨j, hj, hfree⟩
      rcases Nat.eq_zero_or_pos j with rfl | hjpos
      · exact absurd hfree (by simpa using h0)
      · exact ih (counter + 1) ⟨j - 1, by omega, by rw [show counter + 1 + (j - 1) = counter + j by omega]; exact hfree⟩

/-- The name chosen by the disambiguation loop is unclaimed. -/
theorem chosen_free (tbl : OrgTable) (dir base : String) :
    tblLookup tbl (dir, searchFrom tbl dir base (tbl.length + 1) 1) = none := by
  refine searchFrom_free _ _ ?_
  rcases exists_free tbl dir base with ⟨j, hj, hfree⟩
  exact ⟨j, hj, hfree⟩

theorem tblLookup_cons_of_free {tbl : OrgTable} {k0 k : String × String} {v0 u : String}
    (hfree : tblLookup tbl k0 = none) (h : tblLookup tbl k = some u) :
    tblLookup ((k0, v0) :: tbl) k = some u := by
  rw [tblLookup]
  by_cases hk : k = k0
  · rw [hk] at h; rw [h] at hfree; exact absurd hfree (by simp)
  · rw [if_neg hk]; exact h

/-- Table entries are never overwritten: any binding visible before a call to
`organize_path` is still visible, unchanged, after the call. -/
theorem organize_mono {tbl : OrgTable} (url : String) {k : String × String} {u : String}
    (h : tblLookup tbl k = some u) :
    tblLookup (organize_path tbl url).2.2 k = some u := by
  unfold organize_path
  cases pathSegs url with
  | nil => exact h
  | cons p ps =>
    simp only
    cases hl : tblLookup tbl (rawSlot url) with
    | none => exact tblLookup_cons_of_free hl h
    | some w =>
      by_cases hw : w = url
      · simp [hw, h]
      · simp only [if_neg hw]
        exact tblLookup_cons_of_free (chosen_free tbl (rawSlot url).1 (rawBase url)) h

/-- A call on a URL with at least one path segment records its returned
slot in the table, bound to that URL. -/
theorem organize_records {tbl : OrgTable} {url : String} (hne : pathSegs url ≠ []) :
    tblLookup (organize_path tbl url).2.2
      ((organize_path tbl url).1, (organize_path tbl url).2.1) = some url := by
  unfold organize_path
  cases hp : pathSegs url with
  | nil => exact absurd hp hne
  | cons p ps =>
    simp only
    cases hl : tblLookup tbl (rawSlot url) with
    | none => simp [tblLookup]
    | some w =>
      by_cases hw : w = url
      · simpa [hw] using hl
      · simp [if_neg hw, tblLookup]

/-- Persistence through an arbitrary suffix of the run. -/
theorem runCalls_mono {tbl : OrgTable} (urls : List String) {k : String × String} {u : String}
    (h : tblLookup tbl k = some u) :
    tblLookup (runCalls tbl urls) k = some u := by
  induction urls generalizing tbl with
  | nil => exact h
  | cons v vs ih => exact ih (organize_mono v h)

/-- The directory returned by `organize_path` is determined by the URL alone. -/
theorem organize_dir_eq (tbl : OrgTable) (url : String) :
    (organize_path tbl url).1 = (rawSlot url).1 := by
  unfold organize_path
  cases hp : pathSegs url with
  | nil => unfold rawSlot; rw [hp]
  | cons p ps =>
    simp only
    cases tblLookup tbl (rawSlot url) with
    | none => rfl
    | some w => by_cases hw : w = url <;> simp [hw]

example : resolve [("s", XmlDoc.urlset ["https://a.com/p", "https://a.com/n.xml"])] "s" =
    (["https://a.com/p"], ["s", "https://a.com/n.xml"]) := by decide

example :
    resolve [("s", XmlDoc.sitemapindex ["t", "s"]), ("t", XmlDoc.urlset ["u", "s"])] "s" =
      (["u", "s"], ["s", "t"]) := by decide

example :
    resolve [("a.xml", XmlDoc.sitemapindex ["b.xml"]),
             ("b.xml", XmlDoc.urlset ["https://h/p", "a.xml"])] "a.xml" =
      (["https://h/p"], ["a.xml", "b.xml"]) := by decide

theorem enqueue1_mem {p q : List String} {loc x : String}
    (h : x ∈ enqueue1 p q loc) : x ∈ q ∨ x = loc := by
  unfold enqueue1 at h
  split at h
  · exact Or.inl h
  · rcases List.mem_append.mp h with h1 | h1
    · exact Or.inl h1
    · exact Or.inr (List.mem_singleton.mp h1)

theorem enqueue1_len (p q : List String) (loc : String) :
    (enqueue1 p q loc).length ≤ q.length + 1 := by
  unfold enqueue1
  split <;> simp

theorem indexStep_mem {p : List String} :
    ∀ {locs q : List String} {x : String}, x ∈ indexStep p q locs → x ∈ q ∨ x ∈ locs := by
  intro locs
  induction locs with
  | nil => intro q x h; exact Or.inl h
  | cons l ls ih =>
    intro q x h
    rcases ih (q := enqueue1 p q l) h with h1 | h1
    · rcases enqueue1_mem h1 with h2 | h2
      · exact Or.inl h2
      · exact Or.inr (by simp [h2])
    · exact Or.inr (List.mem_cons_of_mem _ h1)

theorem indexStep_len (p : List String) :
    ∀ (locs q : List String), (indexStep p q locs).length ≤ q.length + locs.length := by
  intro locs
  induction locs with
  | nil => intro q; simp [indexStep]
  | cons l ls ih =>
    intro q
    have h1 := ih (enqueue1 p q l)
    have h2 := enqueue1_len p q l
    calc (indexStep p q (l :: ls)).length
        ≤ (enqueue1 p q l).length + ls.length := h1
      _ ≤ q.length + (l :: ls).length := by simp only [List.length_cons]; omega

theorem urlFold_q_mem {p : List String} :
    ∀ {locs : List String} {q acc : List String} {x : String},
      x ∈ (locs.foldl (urlsetStep p) (q, acc)).1 → x ∈ q ∨ x ∈ locs := by
  intro locs
  induction locs with
  | nil => intro q acc x h; exact Or.inl h
  | cons l ls ih =>
    intro q acc x h
    rw [List.foldl_cons] at h
    unfold urlsetStep at h
    by_cases hx : isXmlUrl l = true
    · simp only [hx, if_true] at h
      rcases ih h with h1 | h1
      · rcases enqueue1_mem h1 with h2 | h2
        · exact Or.inl h2
        · exact Or.inr (by simp [h2])
      · exact Or.inr (List.mem_cons_of_mem _ h1)
    · simp only [eq_false_of_ne_true hx, if_false] at h
      rcases ih h with h1 | h1
      · exact Or.inl h1
      · exact Or.inr (List.mem_cons_of_mem _ h1)

theorem urlFold_q_len {p : List String} :
    ∀ (locs q acc : List String),
      ((locs.foldl (urlsetStep p) (q, acc)).1).length ≤ q.length + locs.length := by
  intro locs
  induction locs with
  | nil => intro q acc; simp
  | cons l ls ih =>
    intro q acc
    rw [List.foldl_cons]
    by_cases hx : isXmlUrl l = true
    · have hstep : urlsetStep p (q, acc) l = (enqueue1 p q l, acc) := by
        unfold urlsetStep; rw [if_pos hx]
      rw [hstep]
      have h1 := ih (enqueue1 p q l) acc
      have h2 := enqueue1_len p q l
      simp only [List.length_cons]
      omega
    · have hstep : urlsetStep p (q, acc) l = (q, addUrl acc l) := by
        unfold urlsetStep; rw [if_neg hx]
      rw [hstep]
      have h1 := ih q (addUrl acc l)
      simp only [List.length_cons]
      omega

theorem urlFold_acc_mem {p : List String} :
    ∀ {locs : List String} {q acc : List String} {x : String},
      x ∈ (locs.foldl (urlsetStep p) (q, acc)).2 →
        x ∈ acc ∨ (x ∈ locs ∧ isXmlUrl x = false) := by
  intro locs
  induction locs with
  | nil => intro q acc x h; exact Or.inl h
  | cons l ls ih =>
    intro q acc x h
    rw [List.foldl_cons] at h
    unfold urlsetStep at h
    by_cases hx : isXmlUrl l = true
    · simp only [hx, if_true] at h
      rcases ih h with h1 | h1
      · exact Or.inl h1
      · exact Or.inr ⟨List.mem_cons_of_mem _ h1.1, h1.2⟩
    · simp only [eq_false_of_ne_true hx, if_false] at h
      rcases ih h with h1 | h1
      · unfold addUrl at h1
        split at h1
        · exact Or.inl h1
        · rcases List.mem_append.mp h1 with h2 | h2
          · exact Or.inl h2
          · exact Or.inr ⟨by simp [List.mem_singleton.mp h2],
              by rw [List.mem_singleton.mp h2]; exact eq_false_of_ne_true hx⟩
      · exact Or.inr ⟨List.mem_cons_of_mem _ h1.1, h1.2⟩

theorem fetchDoc_locs_subset {web : Web} {cur : String} {d : XmlDoc}
    (h : fetchDoc web cur = some d) : ∀ x ∈ docLocs d, x ∈ allLocs web := by
  induction web with
  | nil => simp [fetchDoc] at h
  | cons e w ih =>
    intro x hx
    match e with
    | (u, d0) =>
      rw [fetchDoc] at h
      by_cases hc : cur = u
      · rw [if_pos hc] at h
        cases h
        exact List.mem_append.mpr (Or.inl hx)
      · rw [if_neg hc] at h
        exact List.mem_append.mpr (Or.inr (ih h x hx))

theorem fetchDoc_locs_len {web : Web} {cur : String} {d : XmlDoc}
    (h : fetchDoc web cur = some d) : (docLocs d).length ≤ (allLocs web).length := by
  induction web with
  | nil => simp [fetchDoc] at h
  | cons e w ih =>
    match e with
    | (u, d0) =>
      rw [fetchDoc] at h
      by_cases hc : cur = u
      · rw [if_pos hc] at h
        cases h
        simp only [allLocs, List.length_append]
        omega
      · rw [if_neg hc] at h
        have := ih h
        simp only [allLocs, List.length_append]
        omega

theorem cntNew_le (univ p : List String) (cur : String) :
    cntNew univ (cur :: p) ≤ cntNew univ p := by
  induction univ with
  | nil => simp [cntNew]
  | cons a u ih =>
    unfold cntNew at ih ⊢
    rw [List.filter_cons, List.filter_cons]
    by_cases ha : a ∈ p
    · have h1 : (decide (a ∉ p)) = false := by simp [ha]
      have h2 : (decide (a ∉ cur :: p)) = false := by simp [ha]
      rw [h1, h2]
      simpa using ih
    · by_cases hc : a = cur
      · have h1 : (decide (a ∉ p)) = true := by simp [ha]
        have h2 : (decide (a ∉ cur :: p)) = false := by simp [hc]
        rw [h1, h2, if_neg Bool.false_ne_true, if_pos rfl]
        simp only [List.length_cons]
        omega
      · have h1 : (decide (a ∉ p)) = true := by simp [ha]
        have h2 : (decide (a ∉ cur :: p)) = true := by simp [ha, hc]
        rw [h1, h2, if_pos rfl, if_pos rfl]
        simp only [List.length_cons]
        omega

theorem cntNew_lt {univ p : List String} {cur : String}
    (hU : cur ∈ univ) (hp : cur ∉ p) : cntNew univ (cur :: p) + 1 ≤ cntNew univ p := by
  induction univ with
  | nil => simp at hU
  | cons a u ih =>
    unfold cntNew
    rw [List.filter_cons, List.filter_cons]
    by_cases hc : a = cur
    · have h1 : (decide (a ∉ p)) = true := by simp [hc, hp]
      have h2 : (decide (a ∉ cur :: p)) = false := by simp [hc]
      rw [h1, h2, if_neg Bool.false_ne_true, if_pos rfl]
      simp only [List.length_cons]
      have := cntNew_le u p cur
      unfold cntNew at this
      omega
    · rcases List.mem_cons.mp hU with h | h
      · exact absurd h.symm hc
      · have hrec := ih h
        unfold cntNew at hrec
        by_cases ha : a ∈ p
        · have h1 : (decide (a ∉ p)) = false := by simp [ha]
          have h2 : (decide (a ∉ cur :: p)) = false := by simp [ha]
          rw [h1, h2]
          simpa using hrec
        · have h1 : (decide (a ∉ p)) = true := by simp [ha]
          have h2 : (decide (a ∉ cur :: p)) = true := by simp [ha, hc]
          rw [h1, h2, if_pos rfl, if_pos rfl]
          simp only [List.length_cons]
          omega

theorem resolveAux_isSome (web : Web) (initial : String) :
    ∀ fuel q p acc tr, (∀ x ∈ q, x ∈ initial :: allLocs web) →
      rMeasure web initial q p < fuel →
      (resolveAux web fuel q p acc tr).isSome = true := by
  intro fuel
  induction fuel with
  | zero => intro q p acc tr _ hm; exact absurd hm (by omega)
  | succ fuel ih =>
    intro q p acc tr hq hm
    match q with
    | [] => rfl
    | cur :: rest =>
      rw [resolveAux]
      by_cases hp : cur ∈ p
      · rw [if_pos hp]
        refine ih rest p acc tr (fun x hx => hq x (List.mem_cons_of_mem _ hx)) ?_
        unfold rMeasure at hm ⊢
        simp only [List.length_cons] at hm
        omega
      · rw [if_neg hp]
        have hcur : cur ∈ initial :: allLocs web := hq cur (List.mem_cons_self _ _)
        have hcnt := @cntNew_lt (initial :: allLocs web) p cur hcur hp
        set L := (allLocs web).length with hL
        set A := cntNew (initial :: allLocs web) (cur :: p) with hA
        set B := cntNew (initial :: allLocs web) p with hB
        have hAB : A * (L + 1) + (L + 1) ≤ B * (L + 1) := by
          calc A * (L + 1) + (L + 1) = (A + 1) * (L + 1) := by ring
            _ ≤ B * (L + 1) := Nat.mul_le_mul_right _ hcnt
        set x := A * (L + 1) with hx
        set y := B * (L + 1) with hy
        unfold rMeasure at hm
        rw [← hB, ← hy] at hm
        simp only [List.length_cons] at hm
        cases hf : fetchDoc web cur with
        | none =>
          refine ih rest (cur :: p) acc (tr ++ [cur])
            (fun z hz => hq z (List.mem_cons_of_mem _ hz)) ?_
          unfold rMeasure
          rw [← hA, ← hx]
          omega
        | some d =>
          match d with
          | XmlDoc.sitemapindex locs =>
            refine ih (indexStep (cur :: p) rest locs) (cur :: p) acc (tr ++ [cur]) ?_ ?_
            · intro z hz
              rcases indexStep_mem hz with h1 | h1
              · exact hq z (List.mem_cons_of_mem _ h1)
              · exact List.mem_cons_of_mem _ (fetchDoc_locs_subset hf z h1)
            · unfold rMeasure
              rw [← hA, ← hx]
              have h1 := indexStep_len (cur :: p) locs rest
              have h2 : locs.length ≤ L := by
                have := fetchDoc_locs_len hf
                simpa [docLocs] using this
              omega
          | XmlDoc.urlset locs =>
            rw [resolveAux.eq_def]
            simp only
            refine ih _ (cur :: p) _ (tr ++ [cur]) ?_ ?_
            · intro z hz
              rcases urlFold_q_mem hz with h1 | h1
              · exact hq z (List.mem_cons_of_mem _ h1)
              · exact List.mem_cons_of_mem _ (fetchDoc_locs_subset hf z h1)
            · unfold rMeasure
              rw [← hA, ← hx]
              have h1 := urlFold_q_len (p := cur :: p) locs rest acc
              have h2 : locs.length ≤ L := by
                have := fetchDoc_locs_len hf
                simpa [docLocs] using this
              omega
          | XmlDoc.other =>
            refine ih rest (cur :: p) acc (tr ++ [cur])
              (fun z hz => hq z (List.mem_cons_of_mem _ hz)) ?_
            unfold rMeasure
            rw [← hA, ← hx]
            omega
          | XmlDoc.malformed =>
            refine ih rest (cur :: p) acc (tr ++ [cur])
              (fun z hz => hq z (List.mem_cons_of_mem _ hz)) ?_
            unfold rMeasure
            rw [← hA, ← hx]
            omega

theorem resolveAux_eq_some (web : Web) (initial : String) :
    resolveAux web (sufficientFuel web initial) [initial] [] [] [] =
      some (resolve web initial) := by
  have hm : rMeasure web initial [initial] [] < sufficientFuel web initial := by
    unfold rMeasure sufficientFuel cntNew
    have : (initial :: allLocs web).filter (fun x => decide (x ∉ ([] : List String))) =
        initial :: allLocs web := by
      apply List.filter_eq_self.mpr
      intro a _
      simp
    rw [this]
    simp only [List.length_cons, List.length_nil]
    omega
  have hs := resolveAux_isSome web initial (sufficientFuel web initial) [initial] [] [] []
    (by intro x hx; rw [List.mem_singleton.mp hx]; exact List.mem_cons_self _ _) hm
  rcases Option.isSome_iff_exists.mp hs with ⟨r, hr⟩
  rw [resolve, hr]
  simp

theorem resolveAux_trace_nodup {web : Web} :
    ∀ fuel q p acc tr res, tr.Nodup → (∀ x ∈ tr, x ∈ p) →
      resolveAux web fuel q p acc tr = some res → res.2.Nodup := by
  intro fuel
  induction fuel with
  | zero => intro q p acc tr res _ _ h; simp [resolveAux] at h
  | succ fuel ih =>
    intro q p acc tr res hnd hsub h
    match q with
    | [] =>
      rw [resolveAux] at h
      cases h
      exact hnd
    | cur :: rest =>
      rw [resolveAux] at h
      by_cases hp : cur ∈ p
      · rw [if_pos hp] at h
        exact ih rest p acc tr res hnd hsub h
      · rw [if_neg hp] at h
        have hct : cur ∉ tr := fun hmem => hp (hsub cur hmem)
        have hnd' : (tr ++ [cur]).Nodup := by
          rw [List.nodup_append]
          exact ⟨hnd, List.nodup_singleton cur, by simpa using hct⟩
        have hsub' : ∀ x ∈ tr ++ [cur], x ∈ cur :: p := by
          intro x hx
          rcases List.mem_append.mp hx with h1 | h1
          · exact List.mem_cons_of_mem _ (hsub x h1)
          · simp [List.mem_singleton.mp h1]
        cases hf : fetchDoc web cur with
        | none =>
          rw [hf] at h
          exact ih _ _ _ _ _ hnd' hsub' h
        | some d =>
          rw [hf] at h
          match d with
          | XmlDoc.sitemapindex locs => exact ih _ _ _ _ _ hnd' hsub' h
          | XmlDoc.urlset locs => exact ih _ _ _ _ _ hnd' hsub' h
          | XmlDoc.other => exact ih _ _ _ _ _ hnd' hsub' h
          | XmlDoc.malformed => exact ih _ _ _ _ _ hnd' hsub' h

theorem resolveAux_acc_no_xml {web : Web} :
    ∀ fuel q p acc tr res, (∀ x ∈ acc, isXmlUrl x = false) →
      resolveAux web fuel q p acc tr = some res → ∀ u ∈ res.1, isXmlUrl u = false := by
  intro fuel
  induction fuel with
  | zero => intro q p acc tr res _ h; simp [resolveAux] at h
  | succ fuel ih =>
    intro q p acc tr res hacc h
    match q with
    | [] =>
      rw [resolveAux] at h
      cases h
      exact hacc
    | cur :: rest =>
      rw [resolveAux] at h
      by_cases hp : cur ∈ p
      · rw [if_pos hp] at h
        exact ih rest p acc tr res hacc h
      · rw [if_neg hp] at h
        cases hf : fetchDoc web cur with
        | none =>
          rw [hf] at h
          exact ih _ _ _ _ _ hacc h
        | some d =>
          rw [hf] at h
          match d with
          | XmlDoc.sitemapindex locs => exact ih _ _ _ _ _ hacc h
          | XmlDoc.urlset locs =>
            refine ih _ _ _ _ _ ?_ h
            intro x hx
            rcases urlFold_acc_mem hx with h1 | h1
            · exact hacc x h1
            · exact h1.2
          | XmlDoc.other => exact ih _ _ _ _ _ hacc h
          | XmlDoc.malformed => exact ih _ _ _ _ _ hacc h

example : mainUrlsToProcess [] "example.com" = [":///"] := by decide

example : mainUrlsToProcess [] "https://example.com" = ["https://example.com/"] := by decide

example : get_sitemap_url "example.com" = "https://example.com/sitemap.xml" := by decide

example : get_sitemap_url "http://a.com/" = "http://a.com/sitemap.xml" := by decide

example :
    mainUrlsToProcess
      [("https://e.com/sitemap.xml",
        XmlDoc.urlset ["https://e.com/b", "https://e.com/a", "http://f.org/c"])]
      "https://e.com" = ["http://f.org/", "https://e.com/"] := by decide

example :
    (preview_file_structure ["https://e.com/", "https://f.org/x/y"]).leaves =
      [("", "index.md"), ("X", "Y.md")] := by decide

example :
    (preview_file_structure ["https://e.com/", "https://f.org/x/y"]).dirNodes = ["X"] := by
  decide

theorem splitChar_ne_nil (sep : Char) (l : List Char) : splitChar sep l ≠ [] := by
  cases l with
  | nil => simp [splitChar]
  | cons c cs =>
    rw [splitChar]
    cases splitChar sep cs with
    | nil => simp
    | cons g gs => by_cases hc : c = sep <;> simp [hc]

theorem splitChar_cons_sep (sep : Char) (l : List Char) :
    splitChar sep (sep :: l) = [] :: splitChar sep l := by
  rw [splitChar]
  cases h : splitChar sep l with
  | nil => exact absurd h (splitChar_ne_nil sep l)
  | cons g gs => simp

theorem splitChar_cons_ne {sep c : Char} (l : List Char) (hc : c ≠ sep) :
    ∃ g gs, splitChar sep l = g :: gs ∧ splitChar sep (c :: l) = (c :: g) :: gs := by
  cases h : splitChar sep l with
  | nil => exact absurd h (splitChar_ne_nil sep l)
  | cons g gs =>
    refine ⟨g, gs, rfl, ?_⟩
    rw [splitChar, h]
    simp [hc]

theorem splitChar_no_sep {sep : Char} {w : List Char} (hw : ∀ c ∈ w, c ≠ sep) :
    splitChar sep w = [w] := by
  induction w with
  | nil => rfl
  | cons c cs ih =>
    have h1 := ih (fun d hd => hw d (List.mem_cons_of_mem _ hd))
    rcases splitChar_cons_ne cs (hw c (List.mem_cons_self _ _)) with ⟨g, gs, hg, hcons⟩
    rw [h1] at hg
    cases hg
    exact hcons

theorem splitChar_word_sep {sep : Char} {w : List Char} (r : List Char)
    (hw : ∀ c ∈ w, c ≠ sep) :
    splitChar sep (w ++ sep :: r) = w :: splitChar sep r := by
  induction w with
  | nil => simpa using splitChar_cons_sep sep r
  | cons c cs ih =>
    have h1 := ih (fun d hd => hw d (List.mem_cons_of_mem _ hd))
    rcases splitChar_cons_ne (cs ++ sep :: r) (hw c (List.mem_cons_self _ _)) with
      ⟨g, gs, hg, hcons⟩
    rw [h1] at hg
    cases hg
    simpa using hcons

theorem mem_splitChar_ne_sep {sep : Char} :
    ∀ {l : List Char}, ∀ g ∈ splitChar sep l, ∀ c ∈ g, c ≠ sep := by
  intro l
  induction l with
  | nil => intro g hg c hc; simp [splitChar] at hg; simp [hg] at hc
  | cons a as ih =>
    intro g hg c hc
    by_cases ha : a = sep
    · rw [ha, splitChar_cons_sep] at hg
      rcases List.mem_cons.mp hg with h1 | h1
      · simp [h1] at hc
      · exact ih g h1 c hc
    · rcases splitChar_cons_ne as ha with ⟨g0, gs, hg0, hcons⟩
      rw [hcons] at hg
      rcases List.mem_cons.mp hg with h1 | h1
      · subst h1
        rcases List.mem_cons.mp hc with h2 | h2
        · rw [h2]; exact ha
        · exact ih g0 (by rw [hg0]; exact List.mem_cons_self _ _) c h2
      · exact ih g (by rw [hg0]; exact List.mem_cons_of_mem _ h1) c hc

theorem wordsBySpaces_cons_space (l : List Char) :
    wordsBySpaces (' ' :: l) = wordsBySpaces l := by
  unfold wordsBySpaces
  rw [splitChar_cons_sep]
  simp

theorem mem_wordsBySpaces_ne_nil {l : List Char} : ∀ g ∈ wordsBySpaces l, g ≠ [] := by
  intro g hg
  have := List.of_mem_filter hg
  simpa using this

theorem joinWith_eq_nil {sep : Char} {ws : List (List Char)}
    (hne : ∀ g ∈ ws, g ≠ []) (h : joinWith sep ws = []) : ws = [] := by
  cases ws with
  | nil => rfl
  | cons w ws' =>
    cases ws' with
    | nil => exact absurd h (hne w (List.mem_cons_self _ _))
    | cons w2 ws'' =>
      rw [joinWith] at h
      · rcases List.append_eq_nil.mp h with ⟨h1, h2⟩
        simp at h2
      · simp

theorem joinWith_cons {sep : Char} {w : List Char} {ws : List (List Char)} (h : ws ≠ []) :
    joinWith sep (w :: ws) = w ++ sep :: joinWith sep ws := by
  cases ws with
  | nil => exact absurd rfl h
  | cons w2 ws' =>
    rw [joinWith]
    simp

theorem dropWhile_collapseWsAux_flag (cs : List Char) :
    (collapseWsAux true cs).dropWhile isWsChar = (collapseWsAux false cs).dropWhile isWsChar := by
  cases cs with
  | nil => rfl
  | cons c cs' =>
    by_cases hc : isWsChar c = true
    · rw [collapseWsAux, collapseWsAux, if_pos hc, if_pos hc, if_pos rfl,
        if_neg Bool.false_ne_true,
        List.dropWhile_cons_of_pos (show isWsChar ' ' = true from rfl)]
    · rw [collapseWsAux, collapseWsAux, if_neg hc, if_neg hc]

theorem dropWhile_collapseWsAux_true (cs : List Char) :
    (collapseWsAux true cs).dropWhile isWsChar = collapseWsAux true cs := by
  induction cs with
  | nil => rfl
  | cons c cs' ih =>
    by_cases hc : isWsChar c = true
    · rw [collapseWsAux, if_pos hc, if_pos rfl]
      exact ih
    · rw [collapseWsAux, if_neg hc, List.dropWhile_cons_of_neg (by simp [hc])]

theorem collapseWsAux_nonws_append {w : List Char} (hw : ∀ d ∈ w, isWsChar d = false)
    (rest : List Char) :
    collapseWsAux false (w ++ rest) = w ++ collapseWsAux false rest := by
  induction w with
  | nil => rfl
  | cons c cs ih =>
    have hc := hw c (List.mem_cons_self _ _)
    rw [List.cons_append, collapseWsAux, if_neg (by simp [hc])]
    rw [ih (fun d hd => hw d (List.mem_cons_of_mem _ hd))]
    simp

theorem dropWhile_eq_self_of_nonws {p : Char → Bool} {l : List Char}
    (h : ∀ d ∈ l, p d = false) : l.dropWhile p = l := by
  cases l with
  | nil => rfl
  | cons c cs => exact List.dropWhile_cons_of_neg (by simp [h c (List.mem_cons_self _ _)])

theorem stripWs_eq_stripTrail (l : List Char) :
    stripWs l = stripTrail (l.dropWhile isWsChar) := rfl

theorem stripTrail_nonws_append {w : List Char} (hw : ∀ d ∈ w, isWsChar d = false)
    (x : List Char) : stripTrail (w ++ x) = w ++ stripTrail x := by
  unfold stripTrail
  rw [List.reverse_append, List.dropWhile_append]
  by_cases he : (x.reverse.dropWhile isWsChar).isEmpty = true
  · rw [if_pos he]
    rw [dropWhile_eq_self_of_nonws (by intro d hd; exact hw d (List.mem_reverse.mp hd))]
    rw [List.isEmpty_iff] at he
    rw [he]
    simp
  · rw [if_neg he]
    rw [List.reverse_append, List.reverse_reverse]

theorem stripTrail_space_cons {x : List Char} (h : stripTrail x ≠ []) :
    stripTrail (' ' :: x) = ' ' :: stripTrail x := by
  unfold stripTrail at h ⊢
  rw [show (' ' :: x).reverse = x.reverse ++ [' '] by simp]
  rw [List.dropWhile_append]
  have hne : (x.reverse.dropWhile isWsChar).isEmpty = false := by
    rcases h2 : x.reverse.dropWhile isWsChar with _ | _
    · rw [h2] at h; simp at h
    · simp
  rw [hne]
  simp

theorem dropWhile_head_false {p : Char → Bool} :
    ∀ {l : List Char} {x : Char} {xs : List Char}, l.dropWhile p = x :: xs → p x = false := by
  intro l
  induction l with
  | nil => intro x xs h; simp [List.dropWhile] at h
  | cons a as ih =>
    intro x xs h
    by_cases ha : p a = true
    · rw [List.dropWhile_cons_of_pos ha] at h
      exact ih h
    · rw [List.dropWhile_cons_of_neg (by simp [ha])] at h
      cases h
      simpa using ha

theorem space_is_ws : isWsChar ' ' = true := rfl

theorem nonws_ne_space {d : Char} (h : isWsChar d = false) : d ≠ ' ' := by
  intro hd
  rw [hd] at h
  simp [isWsChar] at h

/-- Collapsing whitespace runs then stripping equals splitting into
space-separated words and rejoining with single spaces, for lists whose
whitespace characters are all plain spaces. -/
theorem stripCollapse_eq_join :
    ∀ n (l : List Char), l.length ≤ n → (∀ c ∈ l, isWsChar c = true → c = ' ') →
      stripWs (collapseWs l) = joinWith ' ' (wordsBySpaces l) := by
  intro n
  induction n with
  | zero =>
    intro l hlen _
    have : l = [] := List.length_eq_zero.mp (by omega)
    rw [this]
    rfl
  | succ n ih =>
    intro l hlen hws
    match l with
    | [] => rfl
    | c :: cs =>
      by_cases hc : isWsChar c = true
      · -- leading whitespace: it is a space and collapse/strip ignores it
        have hc' : c = ' ' := hws c (List.mem_cons_self _ _) hc
        subst hc'
        have h1 : stripWs (collapseWs (' ' :: cs)) = stripWs (collapseWs cs) := by
          unfold stripWs collapseWs
          rw [collapseWsAux, if_pos space_is_ws, if_neg Bool.false_ne_true,
            List.dropWhile_cons_of_pos space_is_ws, dropWhile_collapseWsAux_flag]
        rw [h1, wordsBySpaces_cons_space]
        exact ih cs (by simpa using Nat.le_of_succ_le_succ (by simpa using hlen))
          (fun d hd => hws d (List.mem_cons_of_mem _ hd))
      · -- leading word: peel it off
        set w := (c :: cs).takeWhile (fun d => !isWsChar d) with hw_def
        set rest := (c :: cs).dropWhile (fun d => !isWsChar d) with hrest_def
        have hsplit : w ++ rest = c :: cs :=
          List.takeWhile_append_dropWhile (p := fun d => !isWsChar d) (l := c :: cs)
        have hw_nonws : ∀ d ∈ w, isWsChar d = false := by
          intro d hd
          have := List.mem_takeWhile_imp hd
          simpa using this
        have hw_nospace : ∀ d ∈ w, d ≠ ' ' := fun d hd => nonws_ne_space (hw_nonws d hd)
        have hw_ne : w ≠ [] := by
          rw [hw_def, List.takeWhile_cons_of_pos (by simp [hc])]
          simp
        have hcol : collapseWs (c :: cs) = w ++ collapseWsAux false rest := by
          rw [← hsplit]
          exact collapseWsAux_nonws_append hw_nonws rest
        have hdl : (w ++ collapseWsAux false rest).dropWhile isWsChar =
            w ++ collapseWsAux false rest := by
          rw [List.dropWhile_append, dropWhile_eq_self_of_nonws hw_nonws]
          rcases hwc : w with _ | ⟨d, ds⟩
          · exact absurd hwc hw_ne
          · simp
        have hlhs : stripWs (collapseWs (c :: cs)) = w ++ stripTrail (collapseWsAux false rest) := by
          rw [hcol, stripWs_eq_stripTrail, hdl, stripTrail_nonws_append hw_nonws]
        rcases hr : rest with _ | ⟨r0, r'⟩
        · -- no rest: the whole list is one word
          have hw_eq : w = c :: cs := by rw [← hsplit, hr, List.append_nil]
          rw [hlhs, hr]
          have : stripTrail (collapseWsAux false []) = [] := rfl
          rw [this, List.append_nil]
          unfold wordsBySpaces
          rw [← hw_eq, splitChar_no_sep hw_nospace]
          simp [joinWith, hw_ne]
        · -- rest starts with whitespace, necessarily a space
          have hr0ws : isWsChar r0 = true := by
            have := dropWhile_head_false (p := fun d => !isWsChar d) (by rw [← hrest_def, hr])
            simpa using this
          have hr0mem : r0 ∈ c :: cs := by
            rw [← hsplit, hr]
            exact List.mem_append.mpr (Or.inr (List.mem_cons_self _ _))
          have hr0 : r0 = ' ' := hws r0 hr0mem hr0ws
          subst hr0
          have hrlen : r'.length ≤ n := by
            have h1 : w.length + (' ' :: r').length = (c :: cs).length := by
              rw [← hsplit, hr, List.length_append]
            have h2 : 1 ≤ w.length := by
              rcases hwc : w with _ | _
              · exact absurd hwc hw_ne
              · simp
            simp only [List.length_cons] at h1 hlen
            omega
          have hwords : wordsBySpaces (c :: cs) = w :: wordsBySpaces r' := by
            unfold wordsBySpaces
            rw [← hsplit, hr, splitChar_word_sep r' hw_nospace]
            rw [List.filter_cons]
            have : (!w.isEmpty) = true := by
              rcases hwc : w with _ | _
              · exact absurd hwc hw_ne
              · simp
            rw [this, if_pos rfl]
          have hX : collapseWsAux false (' ' :: r') = ' ' :: collapseWsAux true r' := by
            rw [collapseWsAux, if_pos space_is_ws, if_neg Bool.false_ne_true]
          have hSTX : stripTrail (collapseWsAux true r') =
              joinWith ' ' (wordsBySpaces r') := by
            have h1 := ih r' hrlen
              (fun d hd => hws d (by
                rw [← hsplit, hr]
                exact List.mem_append.mpr (Or.inr (List.mem_cons_of_mem _ hd))) )
            rw [stripWs_eq_stripTrail] at h1
            rw [← h1]
            unfold collapseWs
            rw [← dropWhile_collapseWsAux_flag, dropWhile_collapseWsAux_true]
          by_cases hJ : joinWith ' ' (wordsBySpaces r') = []
          · -- everything after the word strips away
            have hwnil : wordsBySpaces r' = [] :=
              joinWith_eq_nil mem_wordsBySpaces_ne_nil hJ
            have hST0 : stripTrail (collapseWsAux true r') = [] := by rw [hSTX, hJ]
            have : stripTrail (' ' :: collapseWsAux true r') = [] := by
              unfold stripTrail at hST0 ⊢
              rw [show (' ' :: collapseWsAux true r').reverse =
                (collapseWsAux true r').reverse ++ [' '] by simp]
              rw [List.dropWhile_append]
              have he : ((collapseWsAux true r').reverse.dropWhile isWsChar).isEmpty = true := by
                rcases h2 : (collapseWsAux true r').reverse.dropWhile isWsChar with _ | _
                · simp
                · rw [h2] at hST0; simp at hST0
              rw [he]
              simp [space_is_ws]
            rw [hlhs, hr, hX, this, List.append_nil, hwords, hwnil]
            simp [joinWith]
          · have hSTne : stripTrail (collapseWsAux true r') ≠ [] := by rw [hSTX]; exact hJ
            have hwne : wordsBySpaces r' ≠ [] := by
              intro h0
              rw [h0] at hJ
              exact hJ rfl
            rw [hlhs, hr, hX, stripTrail_space_cons hSTne, hSTX, hwords,
              joinWith_cons hwne]

theorem pyTitleAux_append_space :
    ∀ (w : List Char) (b : Bool) (r : List Char),
      pyTitleAux b (w ++ ' ' :: r) = pyTitleAux b w ++ ' ' :: pyTitleAux false r := by
  intro w
  induction w with
  | nil =>
    intro b r
    simp only [List.nil_append, pyTitleAux]
    rw [if_neg (show ¬((' ').isAlpha = true) by decide)]
  | cons c cs ih =>
    intro b r
    rw [List.cons_append, pyTitleAux, pyTitleAux]
    by_cases hc : c.isAlpha = true
    · rw [if_pos hc, if_pos hc, ih true r]
      simp
    · rw [if_neg hc, if_neg hc, ih false r]
      simp

theorem pyTitle_joinWith :
    ∀ ws : List (List Char), pyTitle (joinWith ' ' ws) = joinWith ' ' (ws.map pyTitle) := by
  intro ws
  induction ws with
  | nil => rfl
  | cons w ws' ih =>
    cases ws' with
    | nil => rfl
    | cons w2 ws'' =>
      unfold pyTitle at ih ⊢
      calc pyTitleAux false (joinWith ' ' (w :: w2 :: ws''))
          = pyTitleAux false (w ++ ' ' :: joinWith ' ' (w2 :: ws'')) := by
            rw [joinWith_cons (show w2 :: ws'' ≠ [] by simp)]
        _ = pyTitleAux false w ++ ' ' :: pyTitleAux false (joinWith ' ' (w2 :: ws'')) :=
            pyTitleAux_append_space w false _
        _ = pyTitleAux false w ++ ' ' ::
              joinWith ' ' ((w2 :: ws'').map (fun l => pyTitleAux false l)) := by rw [ih]
        _ = joinWith ' ' ((w :: w2 :: ws'').map (fun l => pyTitleAux false l)) := by
            rw [show (w :: w2 :: ws'').map (fun l => pyTitleAux false l) =
                pyTitleAux false w :: (w2 :: ws'').map (fun l => pyTitleAux false l) from rfl,
              joinWith_cons (show
                (w2 :: ws'').map (fun l => pyTitleAux false l) ≠ [] by simp)]

theorem s2u_joinWith :
    ∀ ws : List (List Char),
      spacesToUnderscores (joinWith ' ' ws) =
        joinWith '_' (ws.map spacesToUnderscores) := by
  intro ws
  induction ws with
  | nil => rfl
  | cons w ws' ih =>
    cases ws' with
    | nil => rfl
    | cons w2 ws'' =>
      calc spacesToUnderscores (joinWith ' ' (w :: w2 :: ws''))
          = spacesToUnderscores (w ++ ' ' :: joinWith ' ' (w2 :: ws'')) := by
            rw [joinWith_cons (show w2 :: ws'' ≠ [] by simp)]
        _ = spacesToUnderscores w ++ '_' ::
              spacesToUnderscores (joinWith ' ' (w2 :: ws'')) := by
            unfold spacesToUnderscores
            rw [List.map_append, List.map_cons, if_pos rfl]
        _ = spacesToUnderscores w ++ '_' ::
              joinWith '_' ((w2 :: ws'').map spacesToUnderscores) := by rw [ih]
        _ = joinWith '_' ((w :: w2 :: ws'').map spacesToUnderscores) := by
            rw [show (w :: w2 :: ws'').map spacesToUnderscores =
                spacesToUnderscores w :: (w2 :: ws'').map spacesToUnderscores from rfl,
              joinWith_cons (show (w2 :: ws'').map spacesToUnderscores ≠ [] by simp)]

theorem toUpper_ne_space {c : Char} (h : c ≠ ' ') : c.toUpper ≠ ' ' := by
  simp only [Char.toUpper]
  by_cases hr : c.toNat ≥ 97 ∧ c.toNat ≤ 122
  · rw [if_pos hr]
    obtain ⟨m, hb1, hb2, hm⟩ : ∃ m, 65 ≤ m ∧ m ≤ 90 ∧ c.toNat - 32 = m :=
      ⟨c.toNat - 32, by omega, by omega, rfl⟩
    rw [hm]
    interval_cases m <;> decide
  · rw [if_neg hr]
    exact h

theorem toLower_ne_space {c : Char} (h : c ≠ ' ') : c.toLower ≠ ' ' := by
  simp only [Char.toLower]
  by_cases hr : c.toNat ≥ 65 ∧ c.toNat ≤ 90
  · rw [if_pos hr]
    obtain ⟨m, hb1, hb2, hm⟩ : ∃ m, 97 ≤ m ∧ m ≤ 122 ∧ c.toNat + 32 = m :=
      ⟨c.toNat + 32, by omega, by omega, rfl⟩
    rw [hm]
    interval_cases m <;> decide
  · rw [if_neg hr]
    exact h

theorem pyTitleAux_no_space :
    ∀ (l : List Char) (b : Bool), (∀ c ∈ l, c ≠ ' ') → ∀ d ∈ pyTitleAux b l, d ≠ ' ' := by
  intro l
  induction l with
  | nil => intro b _ d hd; simp [pyTitleAux] at hd
  | cons c cs ih =>
    intro b hl d hd
    have hc := hl c (List.mem_cons_self _ _)
    rw [pyTitleAux] at hd
    by_cases ha : c.isAlpha = true
    · rw [if_pos ha] at hd
      rcases List.mem_cons.mp hd with h1 | h1
      · subst h1
        by_cases hb : b = true
        · simpa [hb] using toLower_ne_space hc
        · simp only [eq_false_of_ne_true hb, if_neg Bool.false_ne_true]
          exact toUpper_ne_space hc
      · exact ih true (fun e he => hl e (List.mem_cons_of_mem _ he)) d h1
    · rw [if_neg ha] at hd
      rcases List.mem_cons.mp hd with h1 | h1
      · rw [h1]; exact hc
      · exact ih false (fun e he => hl e (List.mem_cons_of_mem _ he)) d h1

theorem s2u_eq_self : ∀ {l : List Char}, (∀ c ∈ l, c ≠ ' ') → spacesToUnderscores l = l := by
  intro l
  induction l with
  | nil => intro _; rfl
  | cons c cs ih =>
    intro h
    unfold spacesToUnderscores at ih ⊢
    rw [List.map_cons, if_neg (h c (List.mem_cons_self _ _)),
      ih (fun d hd => h d (List.mem_cons_of_mem _ hd))]

theorem kept_not_ws (c : Char) (h : isWsChar c = true) : (isWordChar c || c = '-') = false := by
  unfold isWsChar at h
  simp only [Bool.or_eq_true, decide_eq_true_eq] at h
  rcases h with ((((rfl | rfl) | rfl) | rfl) | rfl) | rfl <;> decide

theorem replKeepHyphen_ws_space (s : String) :
    ∀ c ∈ replNonWord s.data, isWsChar c = true → c = ' ' := by
  intro c hc hws
  rcases List.mem_map.mp hc with ⟨a, _, rfl⟩
  by_cases hk : (isWordChar a || a = '-') = true
  · rw [if_pos hk] at hws ⊢
    rw [kept_not_ws a hws] at hk
    exact absurd hk (by simp)
  · rw [if_neg hk]

/-- Python `clean_filename` equals the specification pipeline amended to spare
hyphens: split the hyphen-preserving space-normalisation into words,
title-case each word, join with underscores. -/
theorem clean_filename_eq_specCleanHyphen (s : String) :
    clean_filename s = specCleanHyphen s := by
  unfold clean_filename specCleanHyphen
  apply congrArg String.mk
  have hmap : s.data.map (fun c => if isWordChar c || c = '-' then c else ' ') =
      replNonWord s.data := rfl
  rw [hmap]
  rw [stripCollapse_eq_join (replNonWord s.data).length (replNonWord s.data)
    (Nat.le_refl _) (replKeepHyphen_ws_space s)]
  rw [pyTitle_joinWith, s2u_joinWith, List.map_map]
  congr 1
  apply List.map_congr_left
  intro w hw
  show spacesToUnderscores (pyTitle w) = pyTitle w
  apply s2u_eq_self
  intro c hc
  have hwsp : ∀ d ∈ w, d ≠ ' ' := by
    intro d hd
    exact mem_splitChar_ne_sep w (List.mem_of_mem_filter hw) d hd
  exact pyTitleAux_no_space w false hwsp c hc

theorem insertStr_length (x : String) : ∀ l : List String, (insertStr x l).length = l.length + 1 := by
  intro l
  induction l with
  | nil => rfl
  | cons y ys ih =>
    rw [insertStr]
    by_cases h : lexLe x.data y.data = true
    · rw [if_pos h]
      simp
    · rw [if_neg h]
      simp only [List.length_cons, ih]

theorem sortStrs_length : ∀ l : List String, (sortStrs l).length = l.length := by
  intro l
  induction l with
  | nil => rfl
  | cons x xs ih =>
    rw [sortStrs, insertStr_length, ih]
    rfl

theorem addDirChain_leaves_aux :
    ∀ (parts : List String) (st : PreviewState × String),
      ((parts.foldl
        (fun (st : PreviewState × String) part =>
          let cur := if st.2 = "" then part else st.2 ++ "/" ++ part
          (if cur ∈ st.1.dirNodes then st.1
           else { st.1 with dirNodes := st.1.dirNodes ++ [cur] }, cur)) st).1).leaves
        = st.1.leaves := by
  intro parts
  induction parts with
  | nil => intro st; rfl
  | cons p ps ih =>
    intro st
    rw [List.foldl_cons, ih]
    dsimp only
    split <;> split <;> rfl

theorem addDirChain_leaves (ps : PreviewState) (parts : List String) :
    (addDirChain ps parts).leaves = ps.leaves :=
  addDirChain_leaves_aux parts (ps, "")

theorem previewStep_leaves (st : OrgTable × PreviewState) (url : String) :
    ((previewStep st url).2).leaves.length = st.2.leaves.length + 1 := by
  unfold previewStep
  dsimp only
  split
  · simp
  · simp [addDirChain_leaves]

theorem previewFold_leaves :
    ∀ (urls : List String) (st : OrgTable × PreviewState),
      (((urls.foldl previewStep st).2).leaves).length = st.2.leaves.length + urls.length := by
  intro urls
  induction urls with
  | nil => intro st; rfl
  | cons u us ih =>
    intro st
    rw [List.foldl_cons, ih, previewStep_leaves]
    simp only [List.length_cons]
    omega

/-- The preview tree holds exactly one leaf entry per URL. -/
theorem preview_leaf_count (urls : List String) :
    (preview_file_structure urls).leaves.length = urls.length := by
  unfold preview_file_structure
  rw [previewFold_leaves]
  simp [sortStrs_length]

theorem processOne_counts (outDir : String) (st : CrawlState) (pr : String × FetchRes) :
    (processOne outDir st pr).success = st.success + (if isOkRes pr.2 then 1 else 0)
    ∧ (processOne outDir st pr).fail = st.fail + (if isOkRes pr.2 then 0 else 1)
    ∧ (processOne outDir st pr).progress = st.progress + 1 := by
  rcases pr with ⟨u, r⟩
  match r with
  | FetchRes.exc => exact ⟨rfl, rfl, rfl⟩
  | FetchRes.res ok md =>
    cases ok with
    | false => exact ⟨rfl, rfl, rfl⟩
    | true => exact ⟨rfl, rfl, rfl⟩

theorem foldl_processOne_counts (outDir : String) :
    ∀ (prs : List (String × FetchRes)) (st : CrawlState),
      ((prs.foldl (processOne outDir) st).success
          = st.success + prs.countP (fun pr => isOkRes pr.2))
      ∧ ((prs.foldl (processOne outDir) st).fail
          = st.fail + prs.countP (fun pr => !isOkRes pr.2))
      ∧ ((prs.foldl (processOne outDir) st).progress = st.progress + prs.length) := by
  intro prs
  induction prs with
  | nil => intro st; simp
  | cons pr prs' ih =>
    intro st
    rw [List.foldl_cons]
    rcases ih (processOne outDir st pr) with ⟨h1, h2, h3⟩
    rcases processOne_counts outDir st pr with ⟨g1, g2, g3⟩
    refine ⟨?_, ?_, ?_⟩
    · rw [h1, g1, List.countP_cons]
      by_cases hok : isOkRes pr.2 = true <;> simp [hok] <;> omega
    · rw [h2, g2, List.countP_cons]
      by_cases hok : isOkRes pr.2 = true <;> simp [hok] <;> omega
    · rw [h3, g3]
      simp only [List.length_cons]
      omega

theorem zip_countP (f : FetchRes → Bool) :
    ∀ (batch : List String) (rs : List FetchRes), rs.length = batch.length →
      (batch.zip rs).countP (fun pr => f pr.2) = rs.countP f := by
  intro batch
  induction batch with
  | nil =>
    intro rs h
    have : rs = [] := List.length_eq_zero.mp (by simpa using h)
    subst this
    rfl
  | cons b bs ih =>
    intro rs h
    match rs with
    | [] => simp at h
    | r :: rs' =>
      rw [List.zip_cons_cons, List.countP_cons, List.countP_cons,
        ih rs' (by simpa using h)]

theorem countP_not_add (l : List FetchRes) :
    l.countP isOkRes + l.countP (fun r => !isOkRes r) = l.length := by
  induction l with
  | nil => rfl
  | cons r rs ih =>
    rw [List.countP_cons, List.countP_cons]
    by_cases h : isOkRes r = true <;> simp only [h, List.length_cons] <;> simp <;> omega

theorem processChunk_settled_counts (outDir : String) (st : CrawlState)
    (batch : List String) (rs : List FetchRes) (h : rs.length = batch.length) :
    (processChunk outDir st batch (ChunkRes.settled rs)).success
        = st.success + rs.countP isOkRes
    ∧ (processChunk outDir st batch (ChunkRes.settled rs)).fail
        = st.fail + (batch.length - rs.countP isOkRes)
    ∧ (processChunk outDir st batch (ChunkRes.settled rs)).progress
        = st.progress + batch.length := by
  unfold processChunk
  dsimp only
  rcases foldl_processOne_counts outDir (batch.zip rs)
    { st with effects := st.effects ++ batch.map Eff.pageFetch } with ⟨h1, h2, h3⟩
  dsimp only at h1 h2 h3
  have hz : (batch.zip rs).length = batch.length := by
    rw [List.length_zip, h, Nat.min_self]
  have hcnt := zip_countP isOkRes batch rs h
  have hcnt' := zip_countP (fun r => !isOkRes r) batch rs h
  have hsum : rs.countP isOkRes + rs.countP (fun r => !isOkRes r) = rs.length :=
    countP_not_add rs
  refine ⟨?_, ?_, ?_⟩
  · rw [h1, hcnt]
  · rw [h2, hcnt']
    omega
  · rw [h3, hz]

theorem processChunk_exc_counts (outDir : String) (st : CrawlState) (batch : List String) :
    (processChunk outDir st batch ChunkRes.chunkExc).fail = st.fail + batch.length
    ∧ (processChunk outDir st batch ChunkRes.chunkExc).success = st.success
    ∧ (processChunk outDir st batch ChunkRes.chunkExc).progress
        = st.progress + batch.length := by
  exact ⟨rfl, rfl, rfl⟩

theorem crawlChunks_sums (outDir : String) (oracle : Nat → ChunkRes) :
    ∀ (cs : List (Nat × List String)) (st : CrawlState),
      (∀ c ∈ cs, chunkLenOk (oracle c.1) c.2 = true) →
      ((crawlChunks outDir oracle cs st).success + (crawlChunks outDir oracle cs st).fail
          = st.success + st.fail + (cs.map (fun c => c.2.length)).sum)
      ∧ ((crawlChunks outDir oracle cs st).progress
          = st.progress + (cs.map (fun c => c.2.length)).sum) := by
  intro cs
  induction cs with
  | nil => intro st _; simp [crawlChunks]
  | cons c cs' ih =>
    intro st hlen
    rw [crawlChunks]
    rcases ih (processChunk outDir st c.2 (oracle c.1))
      (fun d hd => hlen d (List.mem_cons_of_mem _ hd)) with ⟨h1, h2⟩
    have hc := hlen c (List.mem_cons_self _ _)
    cases hcr : oracle c.1 with
    | chunkExc =>
      rw [hcr] at h1 h2
      rcases processChunk_exc_counts outDir st c.2 with ⟨g1, g2, g3⟩
      rw [h1, h2, g1, g2, g3]
      simp only [List.map_cons, List.sum_cons]
      constructor <;> omega
    | settled rs =>
      rw [hcr] at h1 h2 hc
      unfold chunkLenOk at hc
      have hlen' : rs.length = c.2.length := of_decide_eq_true hc
      rcases processChunk_settled_counts outDir st c.2 rs hlen' with ⟨g1, g2, g3⟩
      rw [h1, h2, g1, g2, g3]
      have hcle : rs.countP isOkRes ≤ c.2.length := by
        have := List.countP_le_length (p := isOkRes) (l := rs)
        omega
      simp only [List.map_cons, List.sum_cons]
      constructor <;> omega

theorem chunksOfAux_sum {k : Nat} (hk : 0 < k) :
    ∀ (fuel : Nat) (l : List String), l.length ≤ fuel →
      ((chunksOfAux k fuel l).map List.length).sum = l.length := by
  intro fuel
  induction fuel with
  | zero =>
    intro l hl
    have : l = [] := List.length_eq_zero.mp (by omega)
    subst this
    rfl
  | succ fuel ih =>
    intro l hl
    rw [chunksOfAux]
    by_cases hnil : l = [] ∨ k = 0
    · rcases hnil with h | h
      · subst h; rw [if_pos (Or.inl rfl)]; rfl
      · omega
    · rw [if_neg hnil]
      simp only [List.map_cons, List.sum_cons]
      rw [ih (l.drop k) (by rw [List.length_drop]; omega)]
      rw [List.length_take, List.length_drop]
      have hlne : l ≠ [] := fun h => hnil (Or.inl h)
      have : 1 ≤ l.length := by
        rcases l with _ | _
        · exact absurd rfl hlne
        · simp
      omega

theorem chunksOf_sum {k : Nat} (hk : 0 < k) (l : List String) :
    ((chunksOf k l).map List.length).sum = l.length :=
  chunksOfAux_sum hk l.length l (Nat.le_refl _)

theorem enum_chunk_sum (cs : List (List String)) :
    (cs.enum.map (fun c => c.2.length)).sum = (cs.map List.length).sum := by
  rw [show (fun (c : Nat × List String) => c.2.length) = (List.length ∘ Prod.snd) from rfl,
    ← List.map_map, List.enum_map_snd]

theorem crawl_parallel_totals (outDir : String) (urls : List String) (maxc : Nat)
    (oracle : Nat → ChunkRes) (hk : 0 < maxc)
    (hlen : ∀ c ∈ (chunksOf maxc urls).enum, chunkLenOk (oracle c.1) c.2 = true) :
    (crawl_parallel outDir urls maxc oracle).success
        + (crawl_parallel outDir urls maxc oracle).fail = urls.length
    ∧ (crawl_parallel outDir urls maxc oracle).progress = urls.length := by
  unfold crawl_parallel
  rcases crawlChunks_sums outDir oracle (chunksOf maxc urls).enum (initCrawlState outDir)
    hlen with ⟨h1, h2⟩
  rw [h1, h2, enum_chunk_sum, chunksOf_sum hk]
  constructor <;> simp [initCrawlState]

theorem processOne_effects_mono {outDir : String} {st : CrawlState}
    {pr : String × FetchRes} {e : Eff} (h : e ∈ st.effects) :
    e ∈ (processOne outDir st pr).effects := by
  rcases pr with ⟨u, r⟩
  match r with
  | FetchRes.exc => exact h
  | FetchRes.res ok md =>
    cases ok with
    | false => exact h
    | true => exact List.mem_append.mpr (Or.inl h)

theorem foldl_processOne_effects_mono {outDir : String} :
    ∀ (prs : List (String × FetchRes)) (st : CrawlState) (e : Eff), e ∈ st.effects →
      e ∈ ((prs.foldl (processOne outDir) st)).effects := by
  intro prs
  induction prs with
  | nil => intro st e h; exact h
  | cons pr prs' ih =>
    intro st e h
    rw [List.foldl_cons]
    exact ih _ e (processOne_effects_mono h)

theorem processChunk_effects_mono {outDir : String} {st : CrawlState}
    {batch : List String} {cr : ChunkRes} {e : Eff} (h : e ∈ st.effects) :
    e ∈ (processChunk outDir st batch cr).effects := by
  unfold processChunk
  have h1 : e ∈ st.effects ++ batch.map Eff.pageFetch := List.mem_append.mpr (Or.inl h)
  match cr with
  | ChunkRes.chunkExc => exact h1
  | ChunkRes.settled rs => exact foldl_processOne_effects_mono _ _ e h1

theorem processChunk_effects_pageFetch {outDir : String} {st : CrawlState}
    {batch : List String} {cr : ChunkRes} {u : String} (hu : u ∈ batch) :
    Eff.pageFetch u ∈ (processChunk outDir st batch cr).effects := by
  unfold processChunk
  have h1 : Eff.pageFetch u ∈ st.effects ++ batch.map Eff.pageFetch :=
    List.mem_append.mpr (Or.inr (List.mem_map_of_mem _ hu))
  match cr with
  | ChunkRes.chunkExc => exact h1
  | ChunkRes.settled rs => exact foldl_processOne_effects_mono _ _ _ h1

theorem crawlChunks_effects_mono {outDir : String} {oracle : Nat → ChunkRes} :
    ∀ (cs : List (Nat × List String)) (st : CrawlState) (e : Eff), e ∈ st.effects →
      e ∈ (crawlChunks outDir oracle cs st).effects := by
  intro cs
  induction cs with
  | nil => intro st e h; exact h
  | cons c cs' ih =>
    intro st e h
    rw [crawlChunks]
    exact ih _ e (processChunk_effects_mono h)

theorem chunksOf_singleton {k : Nat} (hk : 0 < k) (x : String) : chunksOf k [x] = [[x]] := by
  unfold chunksOf
  rw [show ([x] : List String).length = 1 from rfl, chunksOfAux,
    if_neg (by simp; omega)]
  rw [List.take_of_length_le (by simp; omega), List.drop_eq_nil_of_le (by simp; omega)]
  rfl

theorem organize_nilseg {tbl : OrgTable} {u : String} (h : pathSegs u = []) :
    organize_path tbl u = ("", "index.md", tbl) := by
  unfold organize_path
  rw [h]

/-- C1 (counterexample): the claim "organize_path never assigns the same
(directory, filename) slot to two distinct URLs" is false as stated: two
distinct URLs with no path segments both receive `("", "index.md")` through
the early return, bypassing the collision table. -/
theorem claim1_counterexample :
    "https://a.com" ≠ "https://b.com/"
    ∧ (organize_path emptyTbl "https://a.com").1
        = (organize_path (organize_path emptyTbl "https://a.com").2.2 "https://b.com/").1
    ∧ (organize_path emptyTbl "https://a.com").2.1
        = (organize_path (organize_path emptyTbl "https://a.com").2.2 "https://b.com/").2.1 := by
  decide

/-- C1 (amended): for every two `organize_path` calls with distinct URL
arguments that each have at least one path segment — at any two points of one
run, with arbitrary calls in between — if the returned directories agree then
the returned filenames differ.  (URLs with no path segments all share the
`("", "index.md")` slot, which the early return never records.) -/
theorem claim1_amended (t0 : OrgTable) (mid : List String) (u v : String)
    (huv : u ≠ v) (hu : pathSegs u ≠ []) (hv : pathSegs v ≠ [])
    (hdir : (organize_path t0 u).1
        = (organize_path (runCalls (organize_path t0 u).2.2 mid) v).1) :
    (organize_path t0 u).2.1
      ≠ (organize_path (runCalls (organize_path t0 u).2.2 mid) v).2.1 := by
  intro heq
  have h1 : tblLookup (organize_path t0 u).2.2
      ((organize_path t0 u).1, (organize_path t0 u).2.1) = some u := organize_records hu
  have h2 := runCalls_mono mid h1
  have h3 := organize_mono v h2
  have h4 : tblLookup (organize_path (runCalls (organize_path t0 u).2.2 mid) v).2.2
      ((organize_path (runCalls (organize_path t0 u).2.2 mid) v).1,
       (organize_path (runCalls (organize_path t0 u).2.2 mid) v).2.1) = some v :=
    organize_records hv
  rw [hdir, heq] at h3
  exact huv (Option.some.inj (h3.symm.trans h4))

/-- C1 (witness for the amended theorem). -/
theorem claim1_witness :
    (organize_path emptyTbl "http://x/a").2.1
      ≠ (organize_path (runCalls (organize_path emptyTbl "http://x/a").2.2 [])
          "http://x/b").2.1 :=
  claim1_amended emptyTbl [] "http://x/a" "http://x/b" (by decide) (by decide) (by decide)
    (by decide)

/-- C2 (counterexample): `organize_path` is not idempotent for a URL whose
base filename was claimed by a different URL: each repeated call yields a
fresh suffix (`A_B_1.md`, then `A_B_2.md`). -/
theorem claim2_counterexample :
    (organize_path (organize_path emptyTbl "http://x/a_b").2.2 "http://x/a.b").2.1
        = "A_B_1.md"
    ∧ (organize_path
        (organize_path (organize_path emptyTbl "http://x/a_b").2.2 "http://x/a.b").2.2
        "http://x/a.b").2.1 = "A_B_2.md" := by
  decide

/-- C2 (amended): `organize_path` is idempotent for a URL whose call returned
its undisambiguated slot: after such a call, any later call on the same URL
— with arbitrary calls in between — returns the same (directory, filename)
and leaves the table unchanged.  (A URL that was disambiguated instead
receives a fresh suffixed filename on each repeated call.) -/
theorem claim2_amended (t0 : OrgTable) (mid : List String) (u : String)
    (h : (organize_path t0 u).2.1 = (rawSlot u).2) :
    organize_path (runCalls (organize_path t0 u).2.2 mid) u
      = ((rawSlot u).1, (rawSlot u).2, runCalls (organize_path t0 u).2.2 mid) := by
  cases hp : pathSegs u with
  | nil =>
    have hr : rawSlot u = ("", "index.md") := by unfold rawSlot; rw [hp]
    rw [organize_nilseg hp, hr]
  | cons p ps =>
    have hne : pathSegs u ≠ [] := by rw [hp]; simp
    have hrec := @organize_records t0 u hne
    have hkey : ((organize_path t0 u).1, (organize_path t0 u).2.1) = rawSlot u := by
      rw [organize_dir_eq, h]
    rw [hkey] at hrec
    have hmono := runCalls_mono mid hrec
    generalize hT : runCalls (organize_path t0 u).2.2 mid = T at hmono ⊢
    unfold organize_path
    rw [hp, hmono]
    simp

/-- C2 (witness for the amended theorem). -/
theorem claim2_witness :
    organize_path (runCalls (organize_path emptyTbl "http://x/a").2.2 ["http://x/b"])
        "http://x/a"
      = ("", "A.md", runCalls (organize_path emptyTbl "http://x/a").2.2 ["http://x/b"]) :=
  claim2_amended emptyTbl ["http://x/b"] "http://x/a" (by decide)

/-- C3: for every finite collection of sitemap documents — cyclic `<loc>`
references included — the resolver's worklist loop terminates (the computed
fuel bound is never exhausted) and its fetch trace contains each sitemap URL
at most once. -/
theorem claim3_resolution_terminates (web : Web) (initial : String) :
    resolveAux web (sufficientFuel web initial) [initial] [] [] []
        = some (resolve web initial)
    ∧ (resolve web initial).2.Nodup := by
  refine ⟨resolveAux_eq_some web initial, ?_⟩
  exact resolveAux_trace_nodup (sufficientFuel web initial) [initial] [] [] []
    (resolve web initial) List.nodup_nil (by simp) (resolveAux_eq_some web initial)

/-- C4: a `<loc>` inside a urlset that ends in `.xml` (case-insensitive) is
enqueued as a nested sitemap and leaves the page-URL set untouched;
consequently no element of the resolver's returned URL set ends in `.xml`. -/
theorem claim4_urlset_xml_reclassified :
    (∀ (web : Web) (initial : String), ∀ u ∈ (resolve web initial).1, isXmlUrl u = false)
    ∧ (∀ (processed : List String) (st : List String × List String) (loc : String),
        isXmlUrl loc = true →
        urlsetStep processed st loc = (enqueue1 processed st.1 loc, st.2)) := by
  constructor
  · intro web initial u hu
    exact resolveAux_acc_no_xml (sufficientFuel web initial) [initial] [] [] []
      (resolve web initial) (by simp) (resolveAux_eq_some web initial) u hu
  · intro p st loc h
    unfold urlsetStep
    rw [if_pos h]

/-- C4 (witness). -/
theorem claim4_witness :
    isXmlUrl "https://a.com/page" = false
    ∧ urlsetStep [] (["q"], ["r"]) "n.xml" = (["q", "n.xml"], ["r"]) := by
  constructor
  · exact claim4_urlset_xml_reclassified.1
      [("s", XmlDoc.urlset ["https://a.com/page", "https://a.com/n.xml"])] "s"
      "https://a.com/page" (by decide)
  · exact claim4_urlset_xml_reclassified.2 [] (["q"], ["r"]) "n.xml" (by decide)

/-- C5 (counterexample): the claim's "https:// scheme defaulted when the
input carried none" is false: for the scheme-less input `example.com` the
fallback root is built from the raw input's empty scheme and netloc, giving
`:///`, not `https://example.com/` (the default is applied only to the
sitemap probe URL). -/
theorem claim5_counterexample :
    mainUrlsToProcess [] "example.com" = [":///"]
    ∧ ":///" ≠ "https://example.com/" := by
  decide

/-- C5 (amended): whenever the resolver returns an empty URL set, the run
proceeds to crawl exactly one URL: `scheme://netloc/` built from the raw
input `site_url` (which is the normalized site root exactly when the input
itself carried a scheme).  The crawler is invoked on that single URL. -/
theorem claim5_amended (web : Web) (site_url : String) (maxc : Nat)
    (oracle : Nat → ChunkRes)
    (hempty : (resolve web (initialSitemapUrl site_url)).1 = []) (hk : 0 < maxc) :
    mainUrlsToProcess web site_url = [rootUrlOf site_url]
    ∧ (mainRun web site_url maxc oracle false).urlsToProcess = [rootUrlOf site_url]
    ∧ Eff.pageFetch (rootUrlOf site_url) ∈ (mainRun web site_url maxc oracle false).effects := by
  refine ⟨?_, ?_, ?_⟩
  · unfold mainUrlsToProcess
    rw [hempty, if_pos rfl]
  · unfold mainRun
    dsimp only
    rw [hempty]
    rw [if_neg Bool.false_ne_true, if_pos rfl]
  · unfold mainRun
    dsimp only
    rw [hempty]
    rw [if_neg Bool.false_ne_true, if_pos rfl]
    refine List.mem_append.mpr (Or.inr ?_)
    unfold crawl_parallel
    rw [chunksOf_singleton hk]
    rw [show ([[rootUrlOf site_url]] : List (List String)).enum
        = [(0, [rootUrlOf site_url])] from rfl]
    rw [crawlChunks, crawlChunks]
    exact processChunk_effects_pageFetch (List.mem_singleton.mpr rfl)

/-- C5 (witness for the amended theorem). -/
theorem claim5_witness :
    mainUrlsToProcess [] "https://example.com" = ["https://example.com/"]
    ∧ Eff.pageFetch "https://example.com/"
        ∈ (mainRun [] "https://example.com" 3 (fun _ => ChunkRes.chunkExc) false).effects := by
  have h := claim5_amended [] "https://example.com" 3 (fun _ => ChunkRes.chunkExc)
    (by decide) (by decide)
  exact ⟨h.1, h.2.2⟩

/-- C6: in `crawl_parallel`, a settled chunk with `k` exceptions or
unsuccessful results among `n` fetches adds exactly `n - k` to
`success_count` and `k` to `fail_count`; a whole-chunk exception adds the
full chunk size to `fail_count` and nothing to `success_count`; the loop
always continues with the next chunk, and over a whole run every URL is
accounted for (`success + fail = progress = number of URLs`). -/
theorem claim6_chunk_counters :
    (∀ (outDir : String) (st : CrawlState) (batch : List String) (rs : List FetchRes),
        rs.length = batch.length →
        (processChunk outDir st batch (ChunkRes.settled rs)).success
            = st.success + rs.countP isOkRes
        ∧ (processChunk outDir st batch (ChunkRes.settled rs)).fail
            = st.fail + (batch.length - rs.countP isOkRes))
    ∧ (∀ (outDir : String) (st : CrawlState) (batch : List String),
        (processChunk outDir st batch ChunkRes.chunkExc).fail = st.fail + batch.length
        ∧ (processChunk outDir st batch ChunkRes.chunkExc).success = st.success)
    ∧ (∀ (outDir : String) (oracle : Nat → ChunkRes) (c : Nat × List String)
        (cs : List (Nat × List String)) (st : CrawlState),
        crawlChunks outDir oracle (c :: cs) st
          = crawlChunks outDir oracle cs (processChunk outDir st c.2 (oracle c.1)))
    ∧ (∀ (outDir : String) (urls : List String) (maxc : Nat) (oracle : Nat → ChunkRes),
        0 < maxc →
        (∀ c ∈ (chunksOf maxc urls).enum, chunkLenOk (oracle c.1) c.2 = true) →
        (crawl_parallel outDir urls maxc oracle).success
            + (crawl_parallel outDir urls maxc oracle).fail = urls.length
        ∧ (crawl_parallel outDir urls maxc oracle).progress = urls.length) := by
  refine ⟨?_, ?_, ?_, ?_⟩
  · intro outDir st batch rs h
    rcases processChunk_settled_counts outDir st batch rs h with ⟨h1, h2, _⟩
    exact ⟨h1, h2⟩
  · intro outDir st batch
    rcases processChunk_exc_counts outDir st batch with ⟨h1, h2, _⟩
    exact ⟨h1, h2⟩
  · intro outDir oracle c cs st
    rfl
  · intro outDir urls maxc oracle hk hlen
    exact crawl_parallel_totals outDir urls maxc oracle hk hlen

/-- C6 (witness): a chunk of 3 with one raising fetch yields +2 successes
and +1 failure, and a 4-URL run with `max_concurrent = 3` (second chunk a
whole-chunk exception) accounts for all 4 URLs. -/
theorem claim6_witness :
    (processChunk "out" (initCrawlState "out") ["a", "b", "c"]
        (ChunkRes.settled [FetchRes.exc, FetchRes.res true "m", FetchRes.res true "n"])).success
      = 2
    ∧ (processChunk "out" (initCrawlState "out") ["a", "b", "c"]
        (ChunkRes.settled [FetchRes.exc, FetchRes.res true "m", FetchRes.res true "n"])).fail
      = 1
    ∧ (crawl_parallel "out" ["a", "b", "c", "d"] 3
          (fun i => if i = 0 then
            ChunkRes.settled [FetchRes.exc, FetchRes.res true "m", FetchRes.res true "n"]
          else ChunkRes.chunkExc)).success
        + (crawl_parallel "out" ["a", "b", "c", "d"] 3
          (fun i => if i = 0 then
            ChunkRes.settled [FetchRes.exc, FetchRes.res true "m", FetchRes.res true "n"]
          else ChunkRes.chunkExc)).fail = 4 := by
  have h1 := claim6_chunk_counters.1 "out" (initCrawlState "out") ["a", "b", "c"]
    [FetchRes.exc, FetchRes.res true "m", FetchRes.res true "n"] (by decide)
  have h4 := claim6_chunk_counters.2.2.2 "out" ["a", "b", "c", "d"] 3
    (fun i => if i = 0 then
      ChunkRes.settled [FetchRes.exc, FetchRes.res true "m", FetchRes.res true "n"]
    else ChunkRes.chunkExc) (by decide) (by decide)
  exact ⟨h1.1, h1.2, h4.1⟩

/-- C7 (counterexample): the claim's pipeline replaces EVERY non-word
character by a space, but the source regex `[^\w\-]` spares hyphens:
on the segment `a-b` the code yields `A-B` while the stated pipeline yields
`A_B`. -/
theorem claim7_counterexample : clean_filename "a-b" ≠ specCleanStated "a-b" := by
  decide

/-- C7 (amended): the cleaning function equals the spec pipeline amended to
spare hyphens (non-word non-hyphen characters → spaces, whitespace collapsed,
stripped, title-cased, spaces → underscores), and the last path segment falls
back to `index` when cleaning yields the empty string. -/
theorem claim7_clean_pipeline :
    (∀ s : String, clean_filename s = specCleanHyphen s)
    ∧ (∀ (u : String) (p : String) (ps : List String), pathSegs u = p :: ps →
        clean_filename ((p :: ps).getLast (List.cons_ne_nil p ps)) = "" →
        (rawSlot u).2 = "index.md") := by
  constructor
  · exact clean_filename_eq_specCleanHyphen
  · intro u p ps hseg hclean
    unfold rawSlot
    rw [hseg]
    simp only [hclean, if_pos rfl]
    decide

/-- C7 (witness for the amended theorem). -/
theorem claim7_witness :
    clean_filename "a-b" = specCleanHyphen "a-b"
    ∧ (rawSlot "http://x/a/%%%").2 = "index.md" := by
  have h2 := claim7_clean_pipeline.2 "http://x/a/%%%" "a" ["%%%"] (by decide) (by decide)
  exact ⟨claim7_clean_pipeline.1 "a-b", h2⟩

/-- C8: the sitemap fetch is NOT issued with a fixed timeout: the call
`run_in_executor(None, requests.get, url, {"timeout": 10})` passes the dict
as the positional `params` argument of `requests.get`, so the GET carries a
`timeout=10` query parameter and no socket timeout (contradicting the code's
own `# Added timeout` comment).  The fail-soft part of the claim holds: a
failed fetch contributes nothing and the traversal continues with the next
queued sitemap (here `b` is unfetchable, yet `c` is still processed). -/
theorem claim8_timeout_bug :
    (fetch_url_request "https://example.com/sitemap.xml").timeout = none
    ∧ (fetch_url_request "https://example.com/sitemap.xml").params = [("timeout", "10")]
    ∧ resolve [("a", XmlDoc.sitemapindex ["b", "c"]), ("c", XmlDoc.urlset ["https://h/p"])]
        "a" = (["https://h/p"], ["a", "b", "c"]) := by
  decide

/-- C9: with `dry_run` set, the run performs no page fetch and no filesystem
effect (all effects are sitemap fetches), renders a preview whose leaf count
equals the processed URL list's length, and exits successfully. -/
theorem claim9_dry_run (web : Web) (site_url : String) (maxc : Nat)
    (oracle : Nat → ChunkRes) :
    ((mainRun web site_url maxc oracle true).effects.all isSitemapEff) = true
    ∧ (mainRun web site_url maxc oracle true).preview
        = some (preview_file_structure (mainRun web site_url maxc oracle true).urlsToProcess)
    ∧ ((preview_file_structure
          (mainRun web site_url maxc oracle true).urlsToProcess).leaves).length
        = (mainRun web site_url maxc oracle true).urlsToProcess.length
    ∧ (mainRun web site_url maxc oracle true).exitCode = 0 := by
  refine ⟨?_, ?_, preview_leaf_count _, ?_⟩
  · unfold mainRun
    rw [if_pos rfl]
    rw [List.all_eq_true]
    intro e he
    rcases List.mem_map.mp he with ⟨t, _, rfl⟩
    rfl
  · unfold mainRun
    rw [if_pos rfl]
  · unfold mainRun
    rw [if_pos rfl]

/-- C10: the directory and base filename computed by `organize_path` depend
only on the URL's path component: two URLs with equal parsed paths (however
their schemes, hosts, queries or fragments differ) get the same raw
(directory, filename) slot, and the directory actually returned is the same
in any organizer state — so they compete for the same filenames in one run. -/
theorem claim10_path_only (tbl : OrgTable) (u v : String)
    (h : (urlparse u).path = (urlparse v).path) :
    rawSlot u = rawSlot v ∧ (organize_path tbl u).1 = (organize_path tbl v).1 := by
  have hseg : pathSegs u = pathSegs v := by unfold pathSegs; rw [h]
  have hraw : rawSlot u = rawSlot v := by unfold rawSlot; rw [hseg]
  exact ⟨hraw, by rw [organize_dir_eq, organize_dir_eq, hraw]⟩

/-- C10 (witness): different scheme, host, port, query and fragment; same
path. -/
theorem claim10_witness :
    rawSlot "http://a.com/blog/post?x=1#top" = rawSlot "https://b.org:8080/blog/post"
    ∧ (organize_path emptyTbl "http://a.com/blog/post?x=1#top").1
        = (organize_path emptyTbl "https://b.org:8080/blog/post").1 := by
  have h := claim10_path_only emptyTbl "http://a.com/blog/post?x=1#top"
    "https://b.org:8080/blog/post" (by decide)
  exact ⟨h.1, h.2⟩

example : clean_filename "a_b" = "A_B" := by decide

example : clean_filename "a.b" = "A_B" := by decide

example : clean_filename "a-b" = "A-B" := by decide

example : specCleanStated "a-b" = "A_B" := by decide

example : clean_filename "  hello   world " = "Hello_World" := by decide

example : specCleanHyphen "a-b" = "A-B" := by decide

example : clean_filename "%%%" = "" := by decide

example : clean_filename "abc1def" = "Abc1Def" := by decide

end Scrape

